import Mathlib

/-!
# Verification of the MockDB storage backend

A shallow embedding of `src/shared/src/ledger/storage/mockdb.rs`: an
in-memory ordered key-value backend (`BTreeMap<String, Vec<u8>>`) storing
per-height Block State, together with its `write_block`, `read`,
`read_last_block` and `iter_prefix` operations.

Strings are embedded as `List Char` (Rust compares `String` keys by UTF-8
bytes, which coincides with code-point lexicographic order), byte vectors
as `List Nat`.  Code of the repository that is not under `src/` (the key
model, the codec, addresses and the block-height rendering) is modelled
from the spec; each such definition carries a `Modelled from the spec:`
doc comment.
-/

set_option maxRecDepth 20000

abbrev Str := List Char

abbrev Bytes := List Nat

/-! ## Lexicographic order on keys (Rust `BTreeMap` / byte order) -/

/-- Strict lexicographic order on `List Char`, matching Rust's ordering of
`String` keys (byte-wise, which equals code-point order for UTF-8). -/
def lexLt : Str → Str → Bool
  | [], [] => false
  | [], _ :: _ => true
  | _ :: _, [] => false
  | a :: as, b :: bs => if a < b then true else if a = b then lexLt as bs else false

/-- Non-strict lexicographic order. -/
def lexLe (a b : Str) : Bool := lexLt a b || a == b

/-- `isPrefixB p s` holds when the string `p` is a prefix of `s` (Rust
`str::starts_with`). -/
def isPrefixB : Str → Str → Bool
  | [], _ => true
  | _ :: _, [] => false
  | p :: ps, c :: cs => p == c && isPrefixB ps cs

/-- Rust `str::strip_prefix`: remove the prefix `p` from `s`, or fail. -/
def stripPre : Str → Str → Option Str
  | [], s => some s
  | _ :: _, [] => none
  | p :: ps, c :: cs => if p = c then stripPre ps cs else none

/-- Rust `str::split(KEY_SEGMENT_SEPARATOR)`: split on `'/'`, keeping empty
pieces (`split` on an empty string yields one empty piece). -/
def splitSlash : Str → List Str
  | [] => [[]]
  | c :: rest =>
    match splitSlash rest with
    | [] => [[]]
    | s :: ss => if c = '/' then [] :: s :: ss else (c :: s) :: ss

/-- Join segments with `'/'` (Rust `Vec::join("/")`, and the rendering of a
structured key as its database string). -/
def joinSlash : List Str → Str
  | [] => []
  | s :: ss =>
    match ss with
    | [] => s
    | _ :: _ => s ++ '/' :: joinSlash ss

/-! ## Codec

Modelled from the spec: the generic codec (`types::encode` / `types::decode`
of `ledger/storage/types.rs`, not under `src/`).  Per spec §4.2 `encode` is
total and `decode` is partial with a recoverable failure; the only property
the backend relies on is `decode (encode v) = some v`. -/

/-- Modelled from the spec: `types::encode` at an integer-like type
(`BlockHeight`, `Epoch`, `DateTimeUtc`), an injective total encoding. -/
def encodeNat (n : Nat) : Bytes := [n]

/-- Modelled from the spec: `types::decode` at an integer-like type;
fails on bytes that are not an encoding (spec §4.2 `CodingError`). -/
def decodeNat : Bytes → Option Nat
  | [n] => some n
  | _ => none

/-- Modelled from the spec: `types::encode` at an opaque blob type
(Merkle `root`, tree `store`, block `hash`, `address_gen`): a
length-prefixed copy of the bytes. -/
def encodeBlob (b : Bytes) : Bytes := b.length :: b

/-- Modelled from the spec: `types::decode` at an opaque blob type. -/
def decodeBlob : Bytes → Option Bytes
  | [] => none
  | n :: rest => if n = rest.length then some rest else none

/-! ## Key model

Modelled from the spec (§3, §4.1): the structured key type of
`types/storage.rs` is not under `src/`.  A key is a sequence of segments;
a segment is an ordinary string segment or an address segment (rendered
with a leading `'#'`, which `read_last_block` strips before decoding the
address).  Spec §3: segments are "alphanumeric-safe", the separator `'/'`
is forbidden inside a segment; the reserved validity-predicate marker
(`RESERVED_VP_KEY`, modelled as `"?"`) never collides with ordinary
segments and is rejected by the general parser (§4.1). -/

/-- Characters allowed in an ordinary key segment or an encoded address
(spec §3: "alphanumeric-safe"; `'_'` occurs in the literal field name
`address_gen`). -/
def segChar (c : Char) : Bool := c.isAlphanum || c == '_'

/-- A valid segment body: nonempty and alphanumeric-safe.  This excludes
the separator `'/'`, the reserved marker `'?'` and the address tag `'#'`. -/
def segBodyOk (s : Str) : Bool := !s.isEmpty && s.all segChar

/-- Modelled from the spec: an address, identified with its canonical
string encoding (spec §3: "an opaque identifier type with a canonical
string encoding used as a key segment; decodable from that encoding"). -/
abbrev Address := Str

/-- Modelled from the spec: `Address::decode`, succeeding exactly on
canonical encodings. -/
def Address.decode (s : Str) : Option Address :=
  if segBodyOk s then some s else none

/-- The reserved validity-predicate marker segment (`RESERVED_VP_KEY`). -/
def resVP : Str := ['?']

/-- A database key segment: an address segment or a string segment. -/
inductive DbKeySeg where
  | addrSeg : Address → DbKeySeg
  | strSeg : Str → DbKeySeg
deriving DecidableEq

/-- Render one segment into the flat database string: address segments
carry a leading `'#'` (the character `read_last_block` removes before
decoding an address). -/
def DbKeySeg.raw : DbKeySeg → Str
  | .addrSeg a => '#' :: a
  | .strSeg s => s

/-- A structured storage key: an ordered list of segments (spec §3). -/
structure Key where
  segments : List DbKeySeg
deriving DecidableEq

/-- `Key::to_string`: join the rendered segments with `'/'`. -/
def Key.toStr (k : Key) : Str := joinSlash (k.segments.map DbKeySeg.raw)

/-- `Key::push`: append a string segment, failing (`KeyError`) on an
invalid segment (spec §4.1, §7). -/
def Key.push (k : Key) (s : Str) : Except String Key :=
  if segBodyOk s then .ok ⟨k.segments ++ [DbKeySeg.strSeg s]⟩
  else .error "invalid key segment"

/-- `Key::join`: concatenate two keys (spec §4.1). -/
def Key.join (k1 k2 : Key) : Key := ⟨k1.segments ++ k2.segments⟩

/-- Parse one segment: a leading `'#'` marks an address segment; the
reserved marker and malformed segments are rejected (spec §4.1). -/
def parseSeg (t : Str) : Option DbKeySeg :=
  match t with
  | '#' :: rest => if segBodyOk rest then some (.addrSeg rest) else none
  | _ => if segBodyOk t then some (.strSeg t) else none

/-- Parse a list of segments, failing if any single segment fails. -/
def segsParse : List Str → Option (List DbKeySeg)
  | [] => some []
  | t :: ts =>
    match parseSeg t with
    | none => none
    | some s =>
      match segsParse ts with
      | none => none
      | some ss => some (s :: ss)

/-- `Key::parse`: split on the separator and parse each segment; fails on
empty, reserved or malformed segments (spec §4.1: parsing a path holding
the reserved marker "must NOT go through the general parser"). -/
def Key.parse (s : Str) : Option Key :=
  (segsParse (splitSlash s)).map Key.mk

/-- `Key::validity_predicate`: the reserved key `#addr/?` of an address's
validity predicate (spec §3, §4.1). -/
def Key.validity_predicate (a : Address) : Key :=
  ⟨[DbKeySeg.addrSeg a, DbKeySeg.strSeg resVP]⟩

/-- Modelled from the spec: the key-segment rendering of a block height
(`BlockHeight::raw`, used by `write_block`, `read_last_block` and
`iter_prefix` but defined outside `src/`).  The spec leaves the concrete
text abstract and fixes its one load-bearing property: §4.3 equates the
lexicographic key range `[raw H ++ "/", raw (H+1) ++ "/")` with "all keys
whose top segment equals that height", i.e. the rendering is injective,
separator-free and order-preserving for the key order.  We use such a
rendering: `H + 1` copies of the letter `'x'`. -/
def heightRaw (h : Nat) : Str := List.replicate (h + 1) 'x'

/-- `BlockHeight::next_height`. -/
def next_height (h : Nat) : Nat := h + 1

/-! ## Errors and outcomes -/

/-- The error taxonomy of `ledger/storage/mod.rs` as used by the mock
backend (spec §7). -/
inductive Error where
  | KeyError : String → Error
  | CodingError : String → Error
  | UnknownKey : Str → Error
  | Temporary : String → Error
deriving DecidableEq

/-- The result of running a fallible operation: a value, a typed error, or
a Rust panic (`expect` / `String::remove` out of bounds). -/
inductive Outcome (α : Type) where
  | ok : α → Outcome α
  | err : Error → Outcome α
  | panic : String → Outcome α
deriving DecidableEq

/-- Whether an outcome is a success. -/
def Outcome.isOkB : Outcome α → Bool
  | .ok _ => true
  | _ => false

/-- Whether an outcome is a panic. -/
def Outcome.isPanicB : Outcome α → Bool
  | .panic _ => true
  | _ => false

/-! ## The database -/

/-- The backing store of `MockDB`: a `BTreeMap<String, Vec<u8>>`, embedded
as an association list kept sorted by `lexLt` on the keys. -/
abbrev DBm := List (Str × Bytes)

/-- `BTreeMap::get`. -/
def dbGet (db : DBm) (q : Str) : Option Bytes :=
  match db.find? (fun e => e.1 == q) with
  | some e => some e.2
  | none => none

/-- `BTreeMap::insert`: sorted insertion, replacing an existing binding. -/
def dbInsert : DBm → Str → Bytes → DBm
  | [], k, v => [(k, v)]
  | (k', v') :: rest, k, v =>
    if lexLt k k' then (k, v) :: (k', v') :: rest
    else if k = k' then (k, v) :: rest
    else (k', v') :: dbInsert rest k v

/-- The keys of the database. -/
def dbKeys (db : DBm) : List Str := db.map (·.1)

/-- `BTreeMap::range((Included lo, Excluded hi))` in iteration order: for a
sorted list this is the sorted filter of the half-open string interval. -/
def dbRange (db : DBm) (lo hi : Str) : DBm :=
  db.filter (fun e => lexLe lo e.1 && lexLt e.1 hi)

/-- The `BTreeMap` representation invariant: keys strictly increasing. -/
def dbSorted (db : DBm) : Prop :=
  db.Pairwise (fun a b => lexLt a.1 b.1 = true)

/-! ## Block State -/

/-- The Block State entity (spec §3): the unit of commitment per height. -/
structure BlockState where
  root : Bytes
  store : Bytes
  hash : Bytes
  height : Nat
  epoch : Nat
  epoch_start_height : Nat
  epoch_start_time : Nat
  subspaces : List (Key × Bytes)
  address_gen : Bytes
deriving DecidableEq

/-- Whether a key is exactly a validity-predicate key `#addr/?` with a
canonical address. -/
def Key.isVP (k : Key) : Bool :=
  match k.segments with
  | [DbKeySeg.addrSeg a, DbKeySeg.strSeg q] => q == resVP && segBodyOk a
  | _ => false

/-- A valid segment: its body is a valid segment body. -/
def segOk : DbKeySeg → Bool
  | .addrSeg a => segBodyOk a
  | .strSeg s => segBodyOk s

/-- A well-formed ordinary (user) key: nonempty, every segment valid. -/
def Key.wfUser (k : Key) : Bool :=
  !k.segments.isEmpty && k.segments.all segOk

/-- A key that may appear in a subspace: a well-formed user key, or a
validity-predicate key (spec §3 layout, §4.1). -/
def subKeyOk (k : Key) : Bool := Key.wfUser k || Key.isVP k

/-- A well-formed Block State: subspace keys valid, and (as for the Rust
`HashMap` the subspaces are kept in) no duplicate keys. -/
def stWf (st : BlockState) : Prop :=
  (∀ kv ∈ st.subspaces, subKeyOk kv.1 = true) ∧
    (st.subspaces.map (·.1)).Nodup

namespace MockDB

/-- `MockDB::flush`: a no-op. -/
def flush (_db : DBm) : Outcome Unit := .ok ()

/-- `MockDB::write_block` (mockdb.rs lines 29-100): persist the two global
epoch-start fields, the per-height tree root and store, block hash, epoch,
subspace entries and address generator, then the global height pointer. -/
def write_block (db : DBm) (state : BlockState) : Outcome DBm :=
  let db := dbInsert db ("epoch_start_height".data) (encodeNat state.epoch_start_height)
  let db := dbInsert db ("epoch_start_time".data) (encodeNat state.epoch_start_time)
  let prefix_key : Key := ⟨[DbKeySeg.strSeg (heightRaw state.height)]⟩
  match prefix_key.push ("tree".data) with
  | .error e => .err (.KeyError e)
  | .ok treeKey =>
  match treeKey.push ("root".data) with
  | .error e => .err (.KeyError e)
  | .ok rootKey =>
  let db := dbInsert db rootKey.toStr (encodeBlob state.root)
  match treeKey.push ("store".data) with
  | .error e => .err (.KeyError e)
  | .ok storeKey =>
  let db := dbInsert db storeKey.toStr (encodeBlob state.store)
  match prefix_key.push ("hash".data) with
  | .error e => .err (.KeyError e)
  | .ok hashKey =>
  let db := dbInsert db hashKey.toStr (encodeBlob state.hash)
  match prefix_key.push ("epoch".data) with
  | .error e => .err (.KeyError e)
  | .ok epochKey =>
  let db := dbInsert db epochKey.toStr (encodeNat state.epoch)
  match prefix_key.push ("subspace".data) with
  | .error e => .err (.KeyError e)
  | .ok subspaceKey =>
  let db := state.subspaces.foldl
    (fun d kv => dbInsert d ((subspaceKey.join kv.1).toStr) kv.2) db
  match prefix_key.push ("address_gen".data) with
  | .error e => .err (.KeyError e)
  | .ok agKey =>
  let db := dbInsert db agKey.toStr (encodeBlob state.address_gen)
  .ok (dbInsert db ("height".data) (encodeNat state.height))

/-- `MockDB::read` (mockdb.rs lines 102-111): point lookup of a key inside
`<height>/subspace/`; absence is `Ok(None)`. -/
def read (db : DBm) (height : Nat) (key : Key) : Outcome (Option Bytes) :=
  match (⟨[DbKeySeg.strSeg (heightRaw height)]⟩ : Key).push ("subspace".data) with
  | .error e => .err (.KeyError e)
  | .ok k1 => .ok (dbGet db ((k1.join key).toStr))

/-- The accumulator of the `read_last_block` scan loop (mockdb.rs lines
140-145). -/
structure ScanSt where
  root : Option Bytes
  store : Option Bytes
  hash : Option Bytes
  epoch : Option Nat
  address_gen : Option Bytes
  subspaces : List (Key × Bytes)
deriving DecidableEq

/-- `HashMap::insert` on the reconstructed subspaces, embedded on an
association list: replace an existing binding or append a new one. -/
def subInsert (l : List (Key × Bytes)) (k : Key) (v : Bytes) : List (Key × Bytes) :=
  if l.any (fun e => e.1 == k) then l.map (fun e => if e.1 == k then (k, v) else e)
  else l ++ [(k, v)]

/-- One iteration of the `read_last_block` scan loop (mockdb.rs lines
146-226): split the path on the separator and classify it by its second
(and for `tree` third) segment; subspace paths carrying the reserved
marker at index 3 are reconstructed through `Key::validity_predicate`
(panicking, as the source's `expect` calls do, on a missing or
undecodable address segment), all other subspace paths go through
`Key::parse`. -/
def scanStep (st : ScanSt) (path : Str) (bytes : Bytes) : Outcome ScanSt :=
  let segments := splitSlash path
  match segments.get? 1 with
  | none => .err (.UnknownKey path)
  | some seg1 =>
    if seg1 = "tree".data then
      match segments.get? 2 with
      | none => .err (.UnknownKey path)
      | some smt =>
        if smt = "root".data then
          match decodeBlob bytes with
          | none => .err (.CodingError "decode failed")
          | some v => .ok { st with root := some v }
        else if smt = "store".data then
          match decodeBlob bytes with
          | none => .err (.CodingError "decode failed")
          | some v => .ok { st with store := some v }
        else .err (.UnknownKey path)
    else if seg1 = "hash".data then
      match decodeBlob bytes with
      | none => .err (.CodingError "decode failed")
      | some v => .ok { st with hash := some v }
    else if seg1 = "epoch".data then
      match decodeNat bytes with
      | none => .err (.CodingError "decode failed")
      | some v => .ok { st with epoch := some v }
    else if seg1 = "subspace".data then
      match segments.get? 3 with
      | some seg3 =>
        if seg3 = resVP then
          match segments.get? 2 with
          | none => .panic "the address not found"
          | some addr_str =>
            match addr_str with
            | [] => .panic "String::remove: index out of bounds"
            | _ :: rest =>
              match Address.decode rest with
              | none => .panic "cannot decode the address"
              | some addr =>
                .ok { st with subspaces := subInsert st.subspaces (Key.validity_predicate addr) bytes }
        else
          match Key.parse (joinSlash (segments.drop 2)) with
          | none => .err (.Temporary "Cannot parse key segments")
          | some key => .ok { st with subspaces := subInsert st.subspaces key bytes }
      | none =>
        match Key.parse (joinSlash (segments.drop 2)) with
        | none => .err (.Temporary "Cannot parse key segments")
        | some key => .ok { st with subspaces := subInsert st.subspaces key bytes }
    else if seg1 = "address_gen".data then
      match decodeBlob bytes with
      | none => .err (.CodingError "decode failed")
      | some v => .ok { st with address_gen := some v }
    else .err (.UnknownKey path)

/-- The `read_last_block` scan loop: fold `scanStep` over the range,
propagating the first error or panic (the Rust `?` operator). -/
def scanFold : List (Str × Bytes) → ScanSt → Outcome ScanSt
  | [], st => .ok st
  | e :: rest, st =>
    match scanStep st e.1 e.2 with
    | .ok st' => scanFold rest st'
    | .err er => .err er
    | .panic m => .panic m

/-- `MockDB::read_last_block` (mockdb.rs lines 113-250): read the global
height pointer and the two global epoch-start fields (absence of any of
them is `Ok(None)`), scan the height's key range, then require all five
essential fields. -/
def read_last_block (db : DBm) : Outcome (Option BlockState) :=
  match dbGet db ("height".data) with
  | none => .ok none
  | some hb =>
  match decodeNat hb with
  | none => .err (.CodingError "decode failed")
  | some height =>
  match dbGet db ("epoch_start_height".data) with
  | none => .ok none
  | some eb =>
  match decodeNat eb with
  | none => .err (.CodingError "decode failed")
  | some epoch_start_height =>
  match dbGet db ("epoch_start_time".data) with
  | none => .ok none
  | some tb =>
  match decodeNat tb with
  | none => .err (.CodingError "decode failed")
  | some epoch_start_time =>
  let lo := heightRaw height ++ ['/']
  let hi := heightRaw (next_height height) ++ ['/']
  match scanFold (dbRange db lo hi) ⟨none, none, none, none, none, []⟩ with
  | .err er => .err er
  | .panic m => .panic m
  | .ok s =>
    match s.root, s.store, s.hash, s.epoch, s.address_gen with
    | some root, some store, some hash, some epoch, some address_gen =>
      .ok (some ⟨root, store, hash, height, epoch, epoch_start_height,
        epoch_start_time, s.subspaces, address_gen⟩)
    | _, _, _, _, _ =>
      .err (.Temporary "Essential data couldn't be read from the DB")

/-- `MockDB::iter_prefix` together with `MockIterator::next` and
`PrefixIterator::next` (mockdb.rs lines 256-315), embedded as the full
finite sequence the iterator yields: filter the whole ordered map to keys
starting with `<height>/subspace/<prefix>` (raw string prefix match), then
strip `<height>/subspace/` off each key and charge gas equal to the length
of the relative key plus the length of the value. -/
def iter_prefix (db : DBm) (height : Nat) (pre : Key) : List (Str × Bytes × Nat) :=
  let dbPre := heightRaw height ++ '/' :: "subspace".data ++ ['/']
  let fullPre := dbPre ++ Key.toStr pre
  (db.filter (fun e => isPrefixB fullPre e.1)).filterMap (fun e =>
    match stripPre dbPre e.1 with
    | some k => some (k, e.2, k.length + e.2.length)
    | none => none)

end MockDB

/-! ## A pure description of `write_block`'s writes -/

/-- The database string of a per-height field entry. -/
def fieldPath (h : Nat) (f : Str) : Str := heightRaw h ++ '/' :: f

/-- The database string a subspace key is stored under. -/
def subPath (h : Nat) (k : Key) : Str :=
  joinSlash (heightRaw h :: "subspace".data :: k.segments.map DbKeySeg.raw)

/-- The sequence of insertions `write_block` performs, as a pure function
(the `push` calls in `write_block` only ever append the valid literal
segments `tree`, `root`, `store`, `hash`, `epoch`, `subspace`,
`address_gen`, so they never fail; `write_block_eq` below proves the two
agree). -/
def writePure (db : DBm) (st : BlockState) : DBm :=
  let db := dbInsert db ("epoch_start_height".data) (encodeNat st.epoch_start_height)
  let db := dbInsert db ("epoch_start_time".data) (encodeNat st.epoch_start_time)
  let db := dbInsert db (fieldPath st.height ("tree/root".data)) (encodeBlob st.root)
  let db := dbInsert db (fieldPath st.height ("tree/store".data)) (encodeBlob st.store)
  let db := dbInsert db (fieldPath st.height ("hash".data)) (encodeBlob st.hash)
  let db := dbInsert db (fieldPath st.height ("epoch".data)) (encodeNat st.epoch)
  let db := st.subspaces.foldl (fun d kv => dbInsert d (subPath st.height kv.1) kv.2) db
  let db := dbInsert db (fieldPath st.height ("address_gen".data)) (encodeBlob st.address_gen)
  dbInsert db ("height".data) (encodeNat st.height)

/-- The list of bindings `write_block` establishes, in insertion order. -/
def writeEntries (st : BlockState) : DBm :=
  [("epoch_start_height".data, encodeNat st.epoch_start_height),
   ("epoch_start_time".data, encodeNat st.epoch_start_time),
   (fieldPath st.height ("tree/root".data), encodeBlob st.root),
   (fieldPath st.height ("tree/store".data), encodeBlob st.store),
   (fieldPath st.height ("hash".data), encodeBlob st.hash),
   (fieldPath st.height ("epoch".data), encodeNat st.epoch)] ++
  st.subspaces.map (fun kv => (subPath st.height kv.1, kv.2)) ++
  [(fieldPath st.height ("address_gen".data), encodeBlob st.address_gen),
   ("height".data, encodeNat st.height)]

/-- The bindings of `writeEntries` that fall inside the scanned height
range (everything except the three global fields). -/
def rangeEntries (st : BlockState) : DBm :=
  [(fieldPath st.height ("tree/root".data), encodeBlob st.root),
   (fieldPath st.height ("tree/store".data), encodeBlob st.store),
   (fieldPath st.height ("hash".data), encodeBlob st.hash),
   (fieldPath st.height ("epoch".data), encodeNat st.epoch)] ++
  st.subspaces.map (fun kv => (subPath st.height kv.1, kv.2)) ++
  [(fieldPath st.height ("address_gen".data), encodeBlob st.address_gen)]

/-- A database obtained by committing a sequence of Block States onto a
fresh backend. -/
def writeSeq (states : List BlockState) : DBm :=
  states.foldl (fun db st => writePure db st) []

/-- The state transformer of one successful scan step (on a failing step
it keeps the state; only used on entries whose step succeeds). -/
def stepPure (st : MockDB.ScanSt) (e : Str × Bytes) : MockDB.ScanSt :=
  match MockDB.scanStep st e.1 e.2 with
  | .ok st' => st'
  | _ => st

/-- An entry of the scanned range that is one of the bindings `write_block`
put there for the Block State `st`. -/
def goodEntry (st : BlockState) (e : Str × Bytes) : Prop :=
  e = (fieldPath st.height ("tree/root".data), encodeBlob st.root) ∨
  e = (fieldPath st.height ("tree/store".data), encodeBlob st.store) ∨
  e = (fieldPath st.height ("hash".data), encodeBlob st.hash) ∨
  e = (fieldPath st.height ("epoch".data), encodeNat st.epoch) ∨
  e = (fieldPath st.height ("address_gen".data), encodeBlob st.address_gen) ∨
  ∃ kv ∈ st.subspaces, e = (subPath st.height kv.1, kv.2)

/-- The subspace binding a scanned entry contributes (the key
reconstruction of the scan's `subspace` branch, as a pure function);
`none` for entries of other categories or failing reconstruction. -/
def entrySubKey (e : Str × Bytes) : Option (Key × Bytes) :=
  match (splitSlash e.1).get? 1 with
  | none => none
  | some s1 =>
    if s1 = "subspace".data then
      match (splitSlash e.1).get? 3 with
      | some seg3 =>
        if seg3 = resVP then
          match (splitSlash e.1).get? 2 with
          | some (_ :: rest) =>
            match Address.decode rest with
            | some addr => some (Key.validity_predicate addr, e.2)
            | none => none
          | _ => none
        else (Key.parse (joinSlash ((splitSlash e.1).drop 2))).map (fun k => (k, e.2))
      | none => (Key.parse (joinSlash ((splitSlash e.1).drop 2))).map (fun k => (k, e.2))
    else none

/-- The five essential per-height fields of a Block State. -/
inductive FieldTag where
  | root | store | hash | epoch | addressGen
deriving DecidableEq

/-- Whether the `read_last_block` scan takes a path as setting the given
essential field (the segment patterns of its classification). -/
def setsField (f : FieldTag) (path : Str) : Bool :=
  match f with
  | .root => (splitSlash path).get? 1 == some ("tree".data) &&
      (splitSlash path).get? 2 == some ("root".data)
  | .store => (splitSlash path).get? 1 == some ("tree".data) &&
      (splitSlash path).get? 2 == some ("store".data)
  | .hash => (splitSlash path).get? 1 == some ("hash".data)
  | .epoch => (splitSlash path).get? 1 == some ("epoch".data)
  | .addressGen => (splitSlash path).get? 1 == some ("address_gen".data)

/-- Whether the given essential field of the scan accumulator is still
unset. -/
def fieldIsNone (f : FieldTag) (s : MockDB.ScanSt) : Prop :=
  match f with
  | .root => s.root = none
  | .store => s.store = none
  | .hash => s.hash = none
  | .epoch => s.epoch = none
  | .addressGen => s.address_gen = none

/-- Whether a scanned path matches no recognized category
(`tree/root`, `tree/store`, `hash`, `epoch`, `subspace/...`,
`address_gen`). -/
def unrecognized (path : Str) : Bool :=
  match (splitSlash path).get? 1 with
  | none => true
  | some s1 =>
    if s1 = "tree".data then
      match (splitSlash path).get? 2 with
      | none => true
      | some s2 => !(s2 == "root".data) && !(s2 == "store".data)
    else !(s1 == "hash".data) && !(s1 == "epoch".data) && !(s1 == "subspace".data) &&
      !(s1 == "address_gen".data)

/-- Whether a path is a reserved-marker subspace path on which the scan's
address reconstruction panics (the source's `expect`s: missing, empty or
undecodable address segment). -/
def vpPanicky (path : Str) : Bool :=
  (splitSlash path).get? 1 == some ("subspace".data) &&
  ((splitSlash path).get? 3 == some resVP &&
    (match (splitSlash path).get? 2 with
     | none => true
     | some [] => true
     | some (_ :: rest) => Address.decode rest == none))

/-! ## Concrete test vectors -/

/-- The ordinary two-segment user key `a/y`. -/
def keyAY : Key := ⟨[DbKeySeg.strSeg ['a'], DbKeySeg.strSeg ['y']]⟩

/-- The ordinary two-segment user key `b/z`. -/
def keyBZ : Key := ⟨[DbKeySeg.strSeg ['b'], DbKeySeg.strSeg ['z']]⟩

/-- The one-segment user key `a`, used as an iteration root below. -/
def keyA : Key := ⟨[DbKeySeg.strSeg ['a']]⟩

/-- A well-formed Block State at height 0 with one ordinary subspace entry
and one validity-predicate entry. -/
def stA : BlockState :=
  ⟨[1, 2], [3], [4, 5], 0, 7, 1, 2,
    [(keyAY, [9]), (Key.validity_predicate ['a', 'd', 'r'], [8, 8])], [6]⟩

/-- A well-formed Block State at height 1. -/
def stB : BlockState :=
  ⟨[1], [3], [4], 1, 8, 1, 2, [(keyBZ, [5])], [6]⟩

/-- A well-formed Block State at height 1 with two ordinary subspace
entries, `a/x` and `b/z`. -/
def stC3 : BlockState :=
  ⟨[1], [2], [3], 1, 4, 5, 6,
    [(⟨[DbKeySeg.strSeg ['a'], DbKeySeg.strSeg ['x']]⟩, [1]), (keyBZ, [4])], [7]⟩

/-- The (sorted) database obtained by committing `stC3` onto a fresh
backend. -/
def dbIterW : DBm := writePure [] stC3

/-- A well-formed Block State at height 0 whose one subspace key `ab/x`
extends the string rendering of `keyA` without a separator boundary. -/
def stC10 : BlockState :=
  ⟨[1], [2], [3], 0, 4, 5, 6,
    [(⟨[DbKeySeg.strSeg ['a', 'b'], DbKeySeg.strSeg ['x']]⟩, [3])], [7]⟩

/-- The database obtained by committing `stC10` onto a fresh backend. -/
def dbC10w : DBm := writePure [] stC10

/-- A database whose height pointer reads 1 while the per-height data for
height 1 was written under the alien top segment `xx0` (the rendering of no
committed height): all five essential entries for the pointer height are
missing, yet the alien keys fall inside the scanned string range. -/
def dbC2x : DBm :=
  [("epoch_start_height".data, [0]), ("epoch_start_time".data, [0]),
   ("height".data, [1]),
   ("xx0/address_gen".data, encodeBlob [6]),
   ("xx0/epoch".data, [7]),
   ("xx0/hash".data, encodeBlob [4]),
   ("xx0/tree/root".data, encodeBlob [1]),
   ("xx0/tree/store".data, encodeBlob [3])]

/-- A database holding only the three global fields, with the height
pointer at 0 and nothing in the scanned range. -/
def dbC2w : DBm :=
  [("epoch_start_height".data, [0]), ("epoch_start_time".data, [0]),
   ("height".data, [0])]

/-- A database whose height pointer reads 1 while the key `xxx` (the top
segment rendering height 2) sits inside the scanned string range. -/
def dbC5x : DBm :=
  [("epoch_start_height".data, [0]), ("epoch_start_time".data, [0]),
   ("height".data, [1]), (['x', 'x', 'x'], [1])]

/-- A database of one separator-free global key and one key under each of
the height renderings 0 and 1. -/
def dbC5w : DBm := [(['h'], [0]), (['x', '/', 'a'], [1]), (['x', 'x', '/', 'b'], [2])]

/-- A database whose scanned range holds the malformed reserved-marker path
`x/subspace//?` (empty address segment before the reserved marker). -/
def dbC6x : DBm :=
  [("epoch_start_height".data, [0]), ("epoch_start_time".data, [0]),
   ("height".data, [0]), ("x/subspace//?".data, [1])]

/-- A database whose scanned range holds an entry with undecodable bytes
under `x/epoch` followed by the unrecognized key `x/zzz`. -/
def dbC8x : DBm :=
  [("epoch_start_height".data, [0]), ("epoch_start_time".data, [0]),
   ("height".data, [0]), ("x/epoch".data, []), ("x/zzz".data, [7])]

/-- A database whose scanned range holds exactly one entry, under the
unrecognized key `x/zzz`. -/
def dbC8w : DBm :=
  [("epoch_start_height".data, [0]), ("epoch_start_time".data, [0]),
   ("height".data, [0]), ("x/zzz".data, [7])]

/-! # Proof development -/

/-! ## Lexicographic order: basic lemmas -/

theorem lexLt_irrefl (a : Str) : lexLt a a = false := by
  induction a with
  | nil => rfl
  | cons c cs ih => simp [lexLt, lt_irrefl, ih]

theorem lexLt_asymm {a b : Str} (h : lexLt a b = true) : lexLt b a = false := by
  induction a generalizing b with
  | nil =>
    cases b with
    | nil => rfl
    | cons c cs => rfl
  | cons c cs ih =>
    cases b with
    | nil => simp [lexLt] at h
    | cons d ds =>
      simp only [lexLt] at h ⊢
      rcases lt_trichotomy c d with hlt | heq | hgt
      · rw [if_neg (asymm hlt), if_neg (ne_of_gt hlt)]
      · subst heq
        rw [if_neg (lt_irrefl c), if_pos rfl] at h ⊢
        exact ih h
      · rw [if_neg (asymm hgt), if_neg (ne_of_gt hgt)] at h
        simp at h

theorem lexLt_ne {a b : Str} (h : lexLt a b = true) : a ≠ b := by
  intro he
  subst he
  simp [lexLt_irrefl] at h

theorem lexLe_of_lexLt {a b : Str} (h : lexLt a b = true) : lexLe a b = true := by
  simp [lexLe, h]

theorem lexLe_refl (a : Str) : lexLe a a = true := by
  simp [lexLe]

theorem lexLt_append_left (a : Str) (u v : Str) :
    lexLt (a ++ u) (a ++ v) = lexLt u v := by
  induction a with
  | nil => rfl
  | cons c cs ih => simp [lexLt, lt_irrefl, ih]

theorem lexLt_append_self (a t : Str) : lexLt (a ++ t) a = false := by
  induction a with
  | nil => cases t <;> rfl
  | cons c cs ih => simp [lexLt, lt_irrefl, ih]

theorem lexLe_append (a t : Str) : lexLe a (a ++ t) = true := by
  cases t with
  | nil => simp [lexLe_refl]
  | cons c cs =>
    apply lexLe_of_lexLt
    induction a with
    | nil => rfl
    | cons d ds ih => simpa [lexLt, lt_irrefl] using ih

theorem lexLe_false_of_lt {a b : Str} (h : lexLt a b = true) : lexLe b a = false := by
  have h1 := lexLt_asymm h
  have h2 := lexLt_ne h
  simp [lexLe, h1]
  exact fun he => absurd he.symm h2

/-! ## Prefix lemmas -/

theorem isPrefixB_iff {p s : Str} : isPrefixB p s = true ↔ ∃ t, s = p ++ t := by
  induction p generalizing s with
  | nil => simp [isPrefixB]
  | cons c cs ih =>
    cases s with
    | nil => simp [isPrefixB]
    | cons d ds =>
      simp only [isPrefixB, Bool.and_eq_true, beq_iff_eq, ih]
      constructor
      · rintro ⟨rfl, t, rfl⟩
        exact ⟨t, rfl⟩
      · rintro ⟨t, he⟩
        rw [List.cons_append] at he
        injection he with h1 h2
        exact ⟨h1.symm, t, h2⟩

theorem stripPre_eq_some_iff {p s t : Str} : stripPre p s = some t ↔ s = p ++ t := by
  induction p generalizing s with
  | nil => simp [stripPre, eq_comm]
  | cons c cs ih =>
    cases s with
    | nil => simp [stripPre]
    | cons d ds =>
      simp only [stripPre, List.cons_append]
      by_cases h : c = d
      · subst h
        rw [if_pos rfl, ih]
        constructor
        · intro h'; rw [h']
        · intro h'; injection h'
      · rw [if_neg h]
        constructor
        · intro h'; cases h'
        · intro h'; injection h' with h1 _; exact absurd h1.symm h

theorem isPrefixB_append_left (a b c : Str) :
    isPrefixB (a ++ b) (a ++ c) = isPrefixB b c := by
  induction a with
  | nil => rfl
  | cons x xs ih => simp [isPrefixB, ih]

/-! ## splitSlash / joinSlash -/

theorem splitSlash_ne_nil (s : Str) : splitSlash s ≠ [] := by
  cases s with
  | nil => simp [splitSlash]
  | cons c cs =>
    simp only [splitSlash]
    rcases h : splitSlash cs with _ | ⟨a, as⟩
    · simp
    · by_cases hc : c = '/' <;> simp [hc]

theorem splitSlash_noSlash {a : Str} (h : '/' ∉ a) : splitSlash a = [a] := by
  induction a with
  | nil => rfl
  | cons c cs ih =>
    have hc : c ≠ '/' := fun he => h (he ▸ List.mem_cons_self c cs)
    have hcs : '/' ∉ cs := fun hm => h (List.mem_cons_of_mem c hm)
    simp only [splitSlash, ih hcs]
    simp [hc]

theorem splitSlash_append_slash {a : Str} (t : Str) (h : '/' ∉ a) :
    splitSlash (a ++ '/' :: t) = a :: splitSlash t := by
  induction a with
  | nil =>
    simp only [List.nil_append, splitSlash]
    rcases ht : splitSlash t with _ | ⟨b, bs⟩
    · exact absurd ht (splitSlash_ne_nil t)
    · simp
  | cons c cs ih =>
    have hc : c ≠ '/' := fun he => h (he ▸ List.mem_cons_self c cs)
    have hcs : '/' ∉ cs := fun hm => h (List.mem_cons_of_mem c hm)
    have hstep : splitSlash (c :: (cs ++ '/' :: t)) =
        match splitSlash (cs ++ '/' :: t) with
        | [] => [[]]
        | s :: ss => if c = '/' then [] :: s :: ss else (c :: s) :: ss := rfl
    rw [List.cons_append, hstep, ih hcs]
    simp [hc]

theorem joinSlash_cons_cons (a b : Str) (l : List Str) :
    joinSlash (a :: b :: l) = a ++ '/' :: joinSlash (b :: l) := rfl

theorem splitSlash_joinSlash {l : List Str} (hne : l ≠ [])
    (h : ∀ s ∈ l, '/' ∉ s) : splitSlash (joinSlash l) = l := by
  induction l with
  | nil => exact absurd rfl hne
  | cons a as ih =>
    cases as with
    | nil => exact splitSlash_noSlash (h a (List.mem_cons_self a []))
    | cons b bs =>
      rw [joinSlash_cons_cons,
        splitSlash_append_slash _ (h a (List.mem_cons_self a _)),
        ih (by simp) (fun s hs => h s (List.mem_cons_of_mem a hs))]

/-! ## Segments, keys: parse round trip and injectivity -/

theorem segBodyOk_ne_nil {s : Str} (h : segBodyOk s = true) : s ≠ [] := by
  intro he
  subst he
  simp [segBodyOk] at h

theorem segBodyOk_mem {s : Str} (h : segBodyOk s = true) : ∀ c ∈ s, segChar c = true := by
  simp only [segBodyOk, Bool.and_eq_true, List.all_eq_true] at h
  exact fun c hc => h.2 c hc

theorem segBodyOk_no_slash {s : Str} (h : segBodyOk s = true) : '/' ∉ s := by
  intro hm
  exact absurd (segBodyOk_mem h '/' hm) (by decide)

theorem raw_no_slash {seg : DbKeySeg} (h : segOk seg = true) : '/' ∉ seg.raw := by
  cases seg with
  | addrSeg a =>
    simp only [segOk] at h
    simp only [DbKeySeg.raw]
    intro hm
    rcases List.mem_cons.mp hm with h1 | h1
    · exact absurd h1 (by decide)
    · exact absurd (segBodyOk_mem h _ h1) (by decide)
  | strSeg s =>
    simp only [segOk] at h
    exact segBodyOk_no_slash h

theorem parseSeg_raw {seg : DbKeySeg} (h : segOk seg = true) : parseSeg seg.raw = some seg := by
  cases seg with
  | addrSeg a =>
    simp only [segOk] at h
    simp [DbKeySeg.raw, parseSeg, h]
  | strSeg s =>
    simp only [segOk] at h
    simp only [DbKeySeg.raw]
    rcases hs : s with _ | ⟨c, cs⟩
    · exact absurd hs (segBodyOk_ne_nil h)
    · have hc : c ≠ '#' := by
        intro he
        subst hs he
        exact absurd (segBodyOk_mem h '#' (List.mem_cons_self _ _)) (by decide)
      subst hs
      unfold parseSeg
      split
      · next rest heq =>
        injection heq with h1 _
        exact absurd h1 hc
      · rw [if_pos h]

theorem segsParse_raw {l : List DbKeySeg} (h : ∀ s ∈ l, segOk s = true) :
    segsParse (l.map DbKeySeg.raw) = some l := by
  induction l with
  | nil => rfl
  | cons a as ih =>
    have h1 := parseSeg_raw (h a (List.mem_cons_self a as))
    have h2 := ih (fun s hs => h s (List.mem_cons_of_mem a hs))
    simp only [List.map_cons, segsParse, h1, h2]

theorem wfUser_elim {k : Key} (h : Key.wfUser k = true) :
    k.segments ≠ [] ∧ ∀ s ∈ k.segments, segOk s = true := by
  simp only [Key.wfUser, Bool.and_eq_true, List.all_eq_true] at h
  refine ⟨?_, h.2⟩
  intro he
  rw [he] at h
  simp at h

theorem Key.parse_toStr {k : Key} (h : Key.wfUser k = true) : Key.parse k.toStr = some k := by
  obtain ⟨hne, hall⟩ := wfUser_elim h
  unfold Key.parse Key.toStr
  rw [splitSlash_joinSlash (by simpa using hne)
    (by
      intro s hs
      obtain ⟨seg, hseg, rfl⟩ := List.mem_map.mp hs
      exact raw_no_slash (hall seg hseg))]
  rw [segsParse_raw hall]
  rfl

theorem vp_toStr (a : Address) :
    (Key.validity_predicate a).toStr = ('#' :: a) ++ '/' :: resVP := rfl

theorem Key.parse_vp {a : Address} (h : segBodyOk a = true) :
    Key.parse (Key.validity_predicate a).toStr = none := by
  unfold Key.parse
  rw [vp_toStr, splitSlash_append_slash _ (by
    intro hm
    rcases List.mem_cons.mp hm with h1 | h1
    · exact absurd h1 (by decide)
    · exact absurd (segBodyOk_mem h _ h1) (by decide))]
  rw [splitSlash_noSlash (by decide)]
  have h1 : parseSeg ('#' :: a) = some (DbKeySeg.addrSeg a) := by simp [parseSeg, h]
  have h2 : parseSeg resVP = none := by decide
  simp [segsParse, h1, h2]

theorem isVP_elim {k : Key} (h : Key.isVP k = true) :
    ∃ a, segBodyOk a = true ∧ k = Key.validity_predicate a := by
  unfold Key.isVP at h
  split at h
  · next a q heq =>
    simp only [Bool.and_eq_true, beq_iff_eq] at h
    obtain ⟨rfl, hsa⟩ := h
    refine ⟨a, hsa, ?_⟩
    cases k
    simp only [Key.validity_predicate]
    simp_all
  · simp at h

theorem toStr_inj {k1 k2 : Key} (h1 : subKeyOk k1 = true) (h2 : subKeyOk k2 = true)
    (he : k1.toStr = k2.toStr) : k1 = k2 := by
  simp only [subKeyOk, Bool.or_eq_true] at h1 h2
  rcases h1 with h1 | h1 <;> rcases h2 with h2 | h2
  · have p1 := Key.parse_toStr h1
    have p2 := Key.parse_toStr h2
    rw [he, p2] at p1
    injection p1 with hq
    exact hq.symm
  · obtain ⟨a, ha, rfl⟩ := isVP_elim h2
    have p1 := Key.parse_toStr h1
    rw [he, Key.parse_vp ha] at p1
    cases p1
  · obtain ⟨a, ha, rfl⟩ := isVP_elim h1
    have p2 := Key.parse_toStr h2
    rw [← he, Key.parse_vp ha] at p2
    cases p2
  · obtain ⟨a1, ha1, rfl⟩ := isVP_elim h1
    obtain ⟨a2, ha2, rfl⟩ := isVP_elim h2
    rw [vp_toStr, vp_toStr] at he
    have hs := congrArg splitSlash he
    rw [splitSlash_append_slash _ (by
        intro hm
        rcases List.mem_cons.mp hm with hx | hx
        · exact absurd hx (by decide)
        · exact absurd (segBodyOk_mem ha1 _ hx) (by decide)),
      splitSlash_append_slash _ (by
        intro hm
        rcases List.mem_cons.mp hm with hx | hx
        · exact absurd hx (by decide)
        · exact absurd (segBodyOk_mem ha2 _ hx) (by decide))] at hs
    injection hs with hh _
    injection hh with _ ht
    rw [ht]

/-! ## Height rendering and the scanned range -/

theorem heightRaw_cons (h : Nat) : heightRaw h = 'x' :: List.replicate h 'x' :=
  List.replicate_succ 'x' h

theorem heightRaw_no_slash (h : Nat) : '/' ∉ heightRaw h := by
  intro hm
  exact absurd (List.eq_of_mem_replicate hm) (by decide)

theorem heightRaw_add (h d : Nat) :
    heightRaw (h + d) = heightRaw h ++ List.replicate d 'x' := by
  unfold heightRaw
  rw [show h + d + 1 = (h + 1) + d by omega, List.replicate_add]

theorem heightRaw_inj {h1 h2 : Nat} (he : heightRaw h1 = heightRaw h2) : h1 = h2 := by
  have := congrArg List.length he
  simp [heightRaw] at this
  exact this

theorem lexLt_cons_lt {a b : Char} (hab : b < a) (as bs : Str) :
    lexLt (a :: as) (b :: bs) = false := by
  simp only [lexLt, if_neg (asymm hab), if_neg (ne_of_gt hab)]

theorem lexLt_nil_right (t : Str) : lexLt t [] = false := by
  cases t <;> rfl

theorem inRange_height_self (h : Nat) (t : Str) :
    (lexLe (heightRaw h ++ ['/']) (heightRaw h ++ '/' :: t) &&
      lexLt (heightRaw h ++ '/' :: t) (heightRaw (next_height h) ++ ['/'])) = true := by
  rw [Bool.and_eq_true]
  constructor
  · have : heightRaw h ++ '/' :: t = (heightRaw h ++ ['/']) ++ t := by simp
    rw [this]
    exact lexLe_append _ _
  · have hup : heightRaw (next_height h) ++ ['/'] = heightRaw h ++ 'x' :: ['/'] := by
      show heightRaw (h + 1) ++ ['/'] = _
      rw [heightRaw_add h 1]
      simp
    rw [hup, lexLt_append_left]
    simp only [lexLt, if_pos (show '/' < 'x' by decide)]

theorem inRange_lower_lt {h h' : Nat} (hlt : h' < h) (t : Str) :
    lexLe (heightRaw h ++ ['/']) (heightRaw h' ++ '/' :: t) = false := by
  apply lexLe_false_of_lt
  obtain ⟨d, rfl⟩ : ∃ d, h = h' + (d + 1) := ⟨h - h' - 1, by omega⟩
  rw [heightRaw_add h' (d + 1), List.append_assoc, lexLt_append_left]
  simp only [List.replicate_succ, List.cons_append, lexLt,
    if_pos (show '/' < 'x' by decide)]

theorem inRange_upper_ge {h h' : Nat} (hgt : h < h') (t : Str) :
    lexLt (heightRaw h' ++ '/' :: t) (heightRaw (next_height h) ++ ['/']) = false := by
  obtain ⟨d, rfl⟩ : ∃ d, h' = (h + 1) + d := ⟨h' - h - 1, by omega⟩
  show lexLt _ (heightRaw (h + 1) ++ ['/']) = false
  rw [heightRaw_add (h + 1) d, List.append_assoc, lexLt_append_left]
  cases d with
  | zero =>
    rw [List.replicate_zero, List.nil_append]
    show lexLt ('/' :: t) ('/' :: []) = false
    unfold lexLt
    rw [if_neg (lt_irrefl '/'), if_pos rfl]
    exact lexLt_nil_right t
  | succ d' =>
    simp only [List.replicate_succ, List.cons_append]
    exact lexLt_cons_lt (by decide) _ _

theorem global_not_inRange (h : Nat) {g : Str} {c : Char} {g' : Str}
    (hg : g = c :: g') (hc : c < 'x') :
    lexLe (heightRaw h ++ ['/']) g = false := by
  subst hg
  rw [heightRaw_cons, List.cons_append]
  simp only [lexLe, Bool.or_eq_false_iff]
  constructor
  · exact lexLt_cons_lt hc _ _
  · rw [beq_eq_false_iff_ne]
    intro hcon
    injection hcon with h1 _
    exact absurd h1 (ne_of_gt hc)

/-! ## Database primitives -/

theorem dbGet_nil (q : Str) : dbGet [] q = none := rfl

theorem dbGet_cons (k : Str) (v : Bytes) (db : DBm) (q : Str) :
    dbGet ((k, v) :: db) q = if k = q then some v else dbGet db q := by
  by_cases h : k = q
  · subst h
    simp [dbGet, List.find?]
  · have hb : (k == q) = false := beq_eq_false_iff_ne.mpr h
    simp [dbGet, List.find?, hb, h]

theorem dbGet_dbInsert_self (db : DBm) (k : Str) (v : Bytes) :
    dbGet (dbInsert db k v) k = some v := by
  induction db with
  | nil => simp [dbInsert, dbGet_cons]
  | cons e rest ih =>
    obtain ⟨k', v'⟩ := e
    unfold dbInsert
    by_cases h1 : lexLt k k' = true
    · rw [if_pos h1, dbGet_cons, if_pos rfl]
    · rw [if_neg h1]
      by_cases h2 : k = k'
      · rw [if_pos h2, dbGet_cons, if_pos rfl]
      · rw [if_neg h2, dbGet_cons, if_neg (fun he => h2 he.symm), ih]

theorem dbGet_dbInsert_ne (db : DBm) (k : Str) (v : Bytes) {q : Str} (h : q ≠ k) :
    dbGet (dbInsert db k v) q = dbGet db q := by
  induction db with
  | nil =>
    show dbGet [(k, v)] q = dbGet [] q
    rw [dbGet_cons, if_neg (fun he => h he.symm)]
  | cons e rest ih =>
    obtain ⟨k', v'⟩ := e
    unfold dbInsert
    by_cases h1 : lexLt k k' = true
    · rw [if_pos h1, dbGet_cons, if_neg (fun he => h he.symm)]
    · rw [if_neg h1]
      by_cases h2 : k = k'
      · subst h2
        rw [if_pos rfl, dbGet_cons, if_neg (fun he => h he.symm), dbGet_cons,
          if_neg (fun he => h he.symm)]
      · rw [if_neg h2, dbGet_cons, dbGet_cons]
        by_cases h3 : k' = q
        · rw [if_pos h3, if_pos h3]
        · rw [if_neg h3, if_neg h3, ih]

theorem dbInsert_perm {db : DBm} {k : Str} (v : Bytes) (h : k ∉ dbKeys db) :
    (dbInsert db k v).Perm ((k, v) :: db) := by
  induction db with
  | nil => exact List.Perm.refl _
  | cons e rest ih =>
    obtain ⟨k', v'⟩ := e
    have hk : k ≠ k' := by
      intro he
      exact h (by simp [dbKeys, he])
    have hrest : k ∉ dbKeys rest := by
      intro hm
      exact h (by simp [dbKeys] at hm ⊢; right; exact hm)
    unfold dbInsert
    by_cases h1 : lexLt k k' = true
    · rw [if_pos h1]
    · rw [if_neg h1, if_neg hk]
      exact ((ih hrest).cons _).trans (List.Perm.swap (k, v) (k', v') rest)

theorem foldl_dbInsert_perm (f : Key × Bytes → Str) (l : List (Key × Bytes)) :
    ∀ acc : DBm, (l.map f).Nodup → (∀ kv ∈ l, f kv ∉ dbKeys acc) →
    (l.foldl (fun d kv => dbInsert d (f kv) kv.2) acc).Perm
      (acc ++ l.map (fun kv => (f kv, kv.2))) := by
  induction l with
  | nil =>
    intro acc _ _
    simp
  | cons a as ih =>
    intro acc hnd hdisj
    simp only [List.foldl_cons]
    have ha : f a ∉ dbKeys acc := hdisj a (List.mem_cons_self _ _)
    have hperm1 : (dbInsert acc (f a) a.2).Perm ((f a, a.2) :: acc) := dbInsert_perm _ ha
    rw [List.map_cons] at hnd
    have hnd0 := List.nodup_cons.mp hnd
    have hdisj' : ∀ kv ∈ as, f kv ∉ dbKeys (dbInsert acc (f a) a.2) := by
      intro kv hkv hm
      have hm2 : f kv ∈ dbKeys ((f a, a.2) :: acc) :=
        ((hperm1.map (·.1)).mem_iff).mp hm
      rcases List.mem_cons.mp hm2 with he | hmem
      · have he' : f kv = f a := he
        exact hnd0.1 (he' ▸ List.mem_map_of_mem f hkv)
      · exact hdisj kv (List.mem_cons_of_mem a hkv) hmem
    have hrec := ih (dbInsert acc (f a) a.2) hnd0.2 hdisj'
    refine hrec.trans ?_
    refine (hperm1.append_right _).trans ?_
    show ((f a, a.2) :: (acc ++ _)).Perm _
    exact List.perm_middle.symm

/-! ## Path disjointness -/

theorem xhead_ne {h : Nat} {t : Str} {c : Char} {g : Str} (hc : c ≠ 'x') :
    heightRaw h ++ t ≠ c :: g := by
  rw [heightRaw_cons, List.cons_append]
  intro he
  injection he with h1 _
  exact hc h1.symm

theorem fieldPath_inj {h : Nat} {f1 f2 : Str} (he : fieldPath h f1 = fieldPath h f2) :
    f1 = f2 := by
  unfold fieldPath at he
  have := List.append_cancel_left he
  injection this

theorem head_ne_append {c d : Char} {u w v : Str} (h : c ≠ d) :
    (c :: u) ++ w ≠ d :: v := by
  rw [List.cons_append]
  intro he
  injection he with h1 _
  exact h h1

theorem subKeyOk_segs_ne_nil {k : Key} (h : subKeyOk k = true) : k.segments ≠ [] := by
  simp only [subKeyOk, Bool.or_eq_true] at h
  rcases h with h | h
  · exact (wfUser_elim h).1
  · obtain ⟨a, _, rfl⟩ := isVP_elim h
    simp [Key.validity_predicate]

theorem subPath_eq {hh : Nat} {k : Key} (hk : k.segments ≠ []) :
    subPath hh k = heightRaw hh ++ '/' :: ("subspace".data ++ '/' :: k.toStr) := by
  unfold subPath
  rcases hseg : k.segments.map DbKeySeg.raw with _ | ⟨s, ss⟩
  · exact absurd (List.map_eq_nil_iff.mp hseg) hk
  · rw [joinSlash_cons_cons, joinSlash_cons_cons, Key.toStr, hseg]

theorem subPath_ne_fieldPath {hh : Nat} {k : Key} (hk : k.segments ≠ [])
    {f : Str} {c : Char} {g : Str} (hf : f = c :: g) (hc : c ≠ 's') :
    subPath hh k ≠ fieldPath hh f := by
  rw [subPath_eq hk, fieldPath, hf]
  intro he
  have h2 := List.append_cancel_left he
  injection h2 with _ h3
  have hsub : "subspace".data = 's' :: "ubspace".data := rfl
  rw [hsub, List.cons_append] at h3
  injection h3 with h5 _
  exact hc h5.symm

theorem subPath_inj {hh : Nat} {k1 k2 : Key} (h1 : subKeyOk k1 = true)
    (h2 : subKeyOk k2 = true) (he : subPath hh k1 = subPath hh k2) : k1 = k2 := by
  rw [subPath_eq (subKeyOk_segs_ne_nil h1), subPath_eq (subKeyOk_segs_ne_nil h2)] at he
  have h3 := List.append_cancel_left he
  injection h3 with _ h4
  have h5 := List.append_cancel_left h4
  injection h5 with _ h6
  exact toStr_inj h1 h2 h6

theorem heightPrefix_inj {h1 h2 : Nat} {t1 t2 : Str}
    (he : heightRaw h1 ++ '/' :: t1 = heightRaw h2 ++ '/' :: t2) :
    h1 = h2 ∧ t1 = t2 := by
  have hs := congrArg splitSlash he
  rw [splitSlash_append_slash _ (heightRaw_no_slash h1),
    splitSlash_append_slash _ (heightRaw_no_slash h2)] at hs
  injection hs with hh _
  have hq := heightRaw_inj hh
  subst hq
  refine ⟨rfl, ?_⟩
  have h2 := List.append_cancel_left he
  injection h2

/-! ## Characterizing the database written by `write_block` -/

theorem foldl_dbInsertE_perm (E : DBm) : ∀ acc : DBm, (E.map (·.1)).Nodup →
    (∀ e ∈ E, e.1 ∉ dbKeys acc) →
    (E.foldl (fun d e => dbInsert d e.1 e.2) acc).Perm (acc ++ E) := by
  induction E with
  | nil =>
    intro acc _ _
    simp
  | cons a as ih =>
    intro acc hnd hdisj
    simp only [List.foldl_cons]
    have ha : a.1 ∉ dbKeys acc := hdisj a (List.mem_cons_self _ _)
    have hperm1 : (dbInsert acc a.1 a.2).Perm ((a.1, a.2) :: acc) := dbInsert_perm _ ha
    rw [List.map_cons] at hnd
    have hnd0 := List.nodup_cons.mp hnd
    have hdisj' : ∀ e ∈ as, e.1 ∉ dbKeys (dbInsert acc a.1 a.2) := by
      intro e he hm
      have hm2 : e.1 ∈ dbKeys ((a.1, a.2) :: acc) :=
        ((hperm1.map (·.1)).mem_iff).mp hm
      rcases List.mem_cons.mp hm2 with hx | hmem
      · have hx' : e.1 = a.1 := hx
        exact hnd0.1 (hx' ▸ List.mem_map_of_mem (·.1) he)
      · exact hdisj e (List.mem_cons_of_mem a he) hmem
    have hrec := ih (dbInsert acc a.1 a.2) hnd0.2 hdisj'
    refine hrec.trans ?_
    refine (hperm1.append_right _).trans ?_
    show ((a.1, a.2) :: (acc ++ _)).Perm _
    have ha2 : (a.1, a.2) = a := rfl
    rw [ha2]
    exact List.perm_middle.symm

theorem writePure_eq_foldl (db : DBm) (st : BlockState) :
    writePure db st = (writeEntries st).foldl (fun d e => dbInsert d e.1 e.2) db := by
  simp only [writeEntries, List.foldl_append, List.foldl_map, List.foldl_cons, List.foldl_nil]
  rfl

theorem subEnt_keys_nodup {st : BlockState} (hwf : stWf st) :
    (st.subspaces.map (fun kv => subPath st.height kv.1)).Nodup := by
  obtain ⟨hsub, hnd⟩ := hwf
  have : st.subspaces.map (fun kv => subPath st.height kv.1) =
      (st.subspaces.map (·.1)).map (subPath st.height) := by
    rw [List.map_map]
    rfl
  rw [this]
  refine List.Nodup.map_on ?_ hnd
  intro x hx y hy he
  obtain ⟨kvx, hkvx, rfl⟩ := List.mem_map.mp hx
  obtain ⟨kvy, hkvy, rfl⟩ := List.mem_map.mp hy
  exact subPath_inj (hsub kvx hkvx) (hsub kvy hkvy) he

theorem writeEntries_nodup {st : BlockState} (hwf : stWf st) :
    ((writeEntries st).map (·.1)).Nodup := by
  have hsub := hwf.1
  have hsp : ∀ kv ∈ st.subspaces, (kv.1 : Key).segments ≠ [] := by
    intro kv hkv
    exact subKeyOk_segs_ne_nil (hsub kv hkv)
  have hfne : ∀ {f : Str} {c : Char} {g' : Str}, c ≠ 'x' → fieldPath st.height f ≠ c :: g' :=
    fun hc => xhead_ne hc
  have hff : ∀ {f1 f2 : Str}, f1 ≠ f2 → fieldPath st.height f1 ≠ fieldPath st.height f2 :=
    fun hne he => hne (fieldPath_inj he)
  have hsg : ∀ kv ∈ st.subspaces, ∀ {c : Char} {g' : Str}, c ≠ 'x' →
      subPath st.height kv.1 ≠ c :: g' := by
    intro kv hkv c g' hc
    rw [subPath_eq (hsp kv hkv)]
    exact xhead_ne hc
  have hsf : ∀ kv ∈ st.subspaces, ∀ (f : Str) (c : Char) (g' : Str), f = c :: g' → c ≠ 's' →
      subPath st.height kv.1 ≠ fieldPath st.height f :=
    fun kv hkv f c g' hf hc => subPath_ne_fieldPath (hsp kv hkv) hf hc
  simp only [writeEntries, List.map_append, List.map_cons, List.map_nil, List.map_map]
  simp only [List.nodup_cons, List.nodup_append, List.mem_cons, List.mem_append,
    List.mem_map, List.mem_singleton, List.nodup_nil]
  refine ⟨⟨⟨?_, ?_, ?_, ?_, ?_, ?_, trivial⟩, ?_, ?_⟩, ⟨?_, ?_, trivial⟩, ?_⟩
  · intro hcon
    rcases hcon with h | h | h | h | h | h
    · exact absurd h (by decide)
    · exact absurd h.symm (hfne (by decide))
    · exact absurd h.symm (hfne (by decide))
    · exact absurd h.symm (hfne (by decide))
    · exact absurd h.symm (hfne (by decide))
    · simp at h
  · intro hcon
    rcases hcon with h | h | h | h | h
    · exact absurd h.symm (hfne (by decide))
    · exact absurd h.symm (hfne (by decide))
    · exact absurd h.symm (hfne (by decide))
    · exact absurd h.symm (hfne (by decide))
    · simp at h
  · intro hcon
    rcases hcon with h | h | h | h
    · exact absurd h (hff (by decide))
    · exact absurd h (hff (by decide))
    · exact absurd h (hff (by decide))
    · simp at h
  · intro hcon
    rcases hcon with h | h | h
    · exact absurd h (hff (by decide))
    · exact absurd h (hff (by decide))
    · simp at h
  · intro hcon
    rcases hcon with h | h
    · exact absurd h (hff (by decide))
    · simp at h
  · intro hcon
    simp at hcon
  · exact subEnt_keys_nodup hwf
  · intro a ha hb
    obtain ⟨kv, hkv, hkv2⟩ := List.mem_map.mp hb
    have hkv3 : subPath st.height kv.1 = a := hkv2
    subst hkv3
    simp only [List.mem_cons, List.not_mem_nil, or_false] at ha
    rcases ha with h | h | h | h | h | h
    · exact absurd h (hsg kv hkv (by decide))
    · exact absurd h (hsg kv hkv (by decide))
    · exact absurd h (hsf kv hkv _ _ _ rfl (by decide))
    · exact absurd h (hsf kv hkv _ _ _ rfl (by decide))
    · exact absurd h (hsf kv hkv _ _ _ rfl (by decide))
    · exact absurd h (hsf kv hkv _ _ _ rfl (by decide))
  · intro hcon
    rcases hcon with h | h
    · exact absurd h (hfne (by decide))
    · simp at h
  · simp
  · intro a ha hb
    simp only [List.mem_cons, List.not_mem_nil, or_false] at hb
    rcases List.mem_append.mp ha with h6 | hmap
    · simp only [List.mem_cons, List.not_mem_nil, or_false] at h6
      rcases h6 with h | h | h | h | h | h
      · subst h
        rcases hb with hb | hb
        · exact absurd hb.symm (hfne (by decide))
        · exact absurd hb (by decide)
      · subst h
        rcases hb with hb | hb
        · exact absurd hb.symm (hfne (by decide))
        · exact absurd hb (by decide)
      · subst h
        rcases hb with hb | hb
        · exact absurd hb (hff (by decide))
        · exact absurd hb (hfne (by decide))
      · subst h
        rcases hb with hb | hb
        · exact absurd hb (hff (by decide))
        · exact absurd hb (hfne (by decide))
      · subst h
        rcases hb with hb | hb
        · exact absurd hb (hff (by decide))
        · exact absurd hb (hfne (by decide))
      · subst h
        rcases hb with hb | hb
        · exact absurd hb (hff (by decide))
        · exact absurd hb (hfne (by decide))
    · obtain ⟨kv, hkv, hkv2⟩ := List.mem_map.mp hmap
      have hkv3 : subPath st.height kv.1 = a := hkv2
      subst hkv3
      rcases hb with hb | hb
      · exact absurd hb (hsf kv hkv _ _ _ rfl (by decide))
      · exact absurd hb (hsg kv hkv (by decide))

theorem writePure_perm {st : BlockState} (hwf : stWf st) :
    (writePure [] st).Perm (writeEntries st) := by
  rw [writePure_eq_foldl]
  have h := foldl_dbInsertE_perm (writeEntries st) [] (writeEntries_nodup hwf)
    (by intro e _ hm; simp [dbKeys] at hm)
  simpa using h

theorem writeEntries_range {st : BlockState} (hwf : stWf st) :
    dbRange (writeEntries st) (heightRaw st.height ++ ['/'])
      (heightRaw (next_height st.height) ++ ['/']) = rangeEntries st := by
  have hsp : ∀ kv ∈ st.subspaces, (kv.1 : Key).segments ≠ [] :=
    fun kv hkv => subKeyOk_segs_ne_nil (hwf.1 kv hkv)
  have hfin : ∀ f : Str, (lexLe (heightRaw st.height ++ ['/']) (fieldPath st.height f) &&
      lexLt (fieldPath st.height f) (heightRaw (next_height st.height) ++ ['/'])) = true :=
    fun f => inRange_height_self st.height f
  have hg1 : lexLe (heightRaw st.height ++ ['/']) ("epoch_start_height".data) = false :=
    global_not_inRange st.height rfl (by decide)
  have hg2 : lexLe (heightRaw st.height ++ ['/']) ("epoch_start_time".data) = false :=
    global_not_inRange st.height rfl (by decide)
  have hg3 : lexLe (heightRaw st.height ++ ['/']) ("height".data) = false :=
    global_not_inRange st.height rfl (by decide)
  have hmapfil : (st.subspaces.map (fun kv => (subPath st.height kv.1, kv.2))).filter
      (fun e => lexLe (heightRaw st.height ++ ['/']) e.1 &&
        lexLt e.1 (heightRaw (next_height st.height) ++ ['/'])) =
      st.subspaces.map (fun kv => (subPath st.height kv.1, kv.2)) := by
    refine List.filter_eq_self.mpr ?_
    intro e he
    obtain ⟨kv, hkv, rfl⟩ := List.mem_map.mp he
    show (lexLe _ (subPath st.height kv.1) && lexLt (subPath st.height kv.1) _) = true
    rw [subPath_eq (hsp kv hkv)]
    exact inRange_height_self st.height _
  unfold dbRange writeEntries rangeEntries
  rw [List.filter_append, List.filter_append, hmapfil]
  rw [show (List.filter (fun e => lexLe (heightRaw st.height ++ ['/']) e.1 &&
      lexLt e.1 (heightRaw (next_height st.height) ++ ['/']))
      [("epoch_start_height".data, encodeNat st.epoch_start_height),
       ("epoch_start_time".data, encodeNat st.epoch_start_time),
       (fieldPath st.height ("tree/root".data), encodeBlob st.root),
       (fieldPath st.height ("tree/store".data), encodeBlob st.store),
       (fieldPath st.height ("hash".data), encodeBlob st.hash),
       (fieldPath st.height ("epoch".data), encodeNat st.epoch)]) =
      [(fieldPath st.height ("tree/root".data), encodeBlob st.root),
       (fieldPath st.height ("tree/store".data), encodeBlob st.store),
       (fieldPath st.height ("hash".data), encodeBlob st.hash),
       (fieldPath st.height ("epoch".data), encodeNat st.epoch)] from by
    simp only [List.filter_cons, List.filter_nil, hg1, hg2, hfin, Bool.false_and]
    rfl]
  rw [show (List.filter (fun e => lexLe (heightRaw st.height ++ ['/']) e.1 &&
      lexLt e.1 (heightRaw (next_height st.height) ++ ['/']))
      [(fieldPath st.height ("address_gen".data), encodeBlob st.address_gen),
       ("height".data, encodeNat st.height)]) =
      [(fieldPath st.height ("address_gen".data), encodeBlob st.address_gen)] from by
    simp only [List.filter_cons, List.filter_nil, hg3, hfin, Bool.false_and]
    rfl]

theorem range_writePure {st : BlockState} (hwf : stWf st) :
    (dbRange (writePure [] st) (heightRaw st.height ++ ['/'])
      (heightRaw (next_height st.height) ++ ['/'])).Perm (rangeEntries st) := by
  have h1 : (dbRange (writePure [] st) (heightRaw st.height ++ ['/'])
      (heightRaw (next_height st.height) ++ ['/'])).Perm
      (dbRange (writeEntries st) (heightRaw st.height ++ ['/'])
        (heightRaw (next_height st.height) ++ ['/'])) :=
    (writePure_perm hwf).filter _
  rw [writeEntries_range hwf] at h1
  exact h1

/-! ## Codec round trips, map access helpers -/

theorem decodeNat_encodeNat (n : Nat) : decodeNat (encodeNat n) = some n := rfl

theorem decodeBlob_encodeBlob (b : Bytes) : decodeBlob (encodeBlob b) = some b := by
  simp [decodeBlob, encodeBlob]

theorem subInsert_not_mem {l : List (Key × Bytes)} {k : Key} (v : Bytes)
    (h : ∀ e ∈ l, e.1 ≠ k) : MockDB.subInsert l k v = l ++ [(k, v)] := by
  unfold MockDB.subInsert
  rw [if_neg]
  intro hc
  obtain ⟨e, he, hek⟩ := List.any_eq_true.mp hc
  exact h e he (by simpa using hek)

theorem foldl_subInsert_eq : ∀ (l acc : List (Key × Bytes)),
    (((acc ++ l).map (·.1)).Nodup) →
    (l.foldl (fun a kv => MockDB.subInsert a kv.1 kv.2) acc) = acc ++ l := by
  intro l
  induction l with
  | nil =>
    intro acc _
    simp
  | cons kv rest ih =>
    intro acc hnd
    simp only [List.foldl_cons]
    have hnd' := hnd
    rw [List.map_append, List.nodup_append] at hnd'
    obtain ⟨_, _, hdis⟩ := hnd'
    have hnotin : ∀ e ∈ acc, e.1 ≠ kv.1 := by
      intro e he hek
      exact hdis (List.mem_map_of_mem _ he) (by rw [hek]; simp)
    have hstep : MockDB.subInsert acc kv.1 kv.2 = acc ++ [kv] :=
      subInsert_not_mem kv.2 hnotin
    rw [hstep]
    have hnd2 : (((acc ++ [kv]) ++ rest).map (·.1)).Nodup := by
      rw [List.append_assoc, List.singleton_append]
      exact hnd
    rw [ih (acc ++ [kv]) hnd2, List.append_assoc, List.singleton_append]

theorem dbGet_subfold_ne {h : Nat} {q : Str} (l : List (Key × Bytes)) :
    ∀ acc : DBm, (∀ kv ∈ l, subPath h kv.1 ≠ q) →
    dbGet (l.foldl (fun d kv => dbInsert d (subPath h kv.1) kv.2) acc) q = dbGet acc q := by
  induction l with
  | nil =>
    intro acc _
    rfl
  | cons a as ih =>
    intro acc hl
    simp only [List.foldl_cons]
    rw [ih (dbInsert acc (subPath h a.1) a.2) (fun x hx => hl x (List.mem_cons_of_mem a hx)),
      dbGet_dbInsert_ne _ _ _ (fun he => hl a (List.mem_cons_self a as) he.symm)]

theorem subPath_form (h : Nat) (k : Key) :
    subPath h k = heightRaw h ++ '/' :: joinSlash ("subspace".data :: k.segments.map DbKeySeg.raw) := by
  unfold subPath
  rw [joinSlash_cons_cons]

theorem writePure_get_height (db : DBm) (st : BlockState) :
    dbGet (writePure db st) ("height".data) = some (encodeNat st.height) := by
  unfold writePure
  exact dbGet_dbInsert_self _ _ _

theorem writePure_frame (db : DBm) (st : BlockState) {q : Str}
    (h1 : q ≠ "epoch_start_height".data) (h2 : q ≠ "epoch_start_time".data)
    (h3 : q ≠ "height".data) (h4 : ∀ t : Str, q ≠ heightRaw st.height ++ '/' :: t) :
    dbGet (writePure db st) q = dbGet db q := by
  have h4f : ∀ f : Str, q ≠ fieldPath st.height f := fun f => h4 f
  unfold writePure
  rw [dbGet_dbInsert_ne _ _ _ h3,
    dbGet_dbInsert_ne _ _ _ (h4f _),
    dbGet_subfold_ne _ _
      (by
        intro kv _ he
        rw [subPath_form] at he
        exact h4 _ he.symm),
    dbGet_dbInsert_ne _ _ _ (h4f _),
    dbGet_dbInsert_ne _ _ _ (h4f _),
    dbGet_dbInsert_ne _ _ _ (h4f _),
    dbGet_dbInsert_ne _ _ _ (h4f _),
    dbGet_dbInsert_ne _ _ _ h2,
    dbGet_dbInsert_ne _ _ _ h1]

theorem writePure_get_esh (db : DBm) (st : BlockState) :
    dbGet (writePure db st) ("epoch_start_height".data) =
      some (encodeNat st.epoch_start_height) := by
  have hne : ∀ t : Str, ("epoch_start_height".data : Str) ≠ heightRaw st.height ++ '/' :: t := by
    intro t he
    exact xhead_ne (show ('e' : Char) ≠ 'x' by decide) he.symm
  have hnef : ∀ f : Str, ("epoch_start_height".data : Str) ≠ fieldPath st.height f :=
    fun f => hne f
  unfold writePure
  rw [dbGet_dbInsert_ne _ _ _ (by decide),
    dbGet_dbInsert_ne _ _ _ (hnef _),
    dbGet_subfold_ne _ _
      (by
        intro kv _ he
        rw [subPath_form] at he
        exact hne _ he.symm),
    dbGet_dbInsert_ne _ _ _ (hnef _),
    dbGet_dbInsert_ne _ _ _ (hnef _),
    dbGet_dbInsert_ne _ _ _ (hnef _),
    dbGet_dbInsert_ne _ _ _ (hnef _),
    dbGet_dbInsert_ne _ _ _ (by decide),
    dbGet_dbInsert_self]

theorem writePure_get_est (db : DBm) (st : BlockState) :
    dbGet (writePure db st) ("epoch_start_time".data) =
      some (encodeNat st.epoch_start_time) := by
  have hne : ∀ t : Str, ("epoch_start_time".data : Str) ≠ heightRaw st.height ++ '/' :: t := by
    intro t he
    exact xhead_ne (show ('e' : Char) ≠ 'x' by decide) he.symm
  have hnef : ∀ f : Str, ("epoch_start_time".data : Str) ≠ fieldPath st.height f :=
    fun f => hne f
  unfold writePure
  rw [dbGet_dbInsert_ne _ _ _ (by decide),
    dbGet_dbInsert_ne _ _ _ (hnef _),
    dbGet_subfold_ne _ _
      (by
        intro kv _ he
        rw [subPath_form] at he
        exact hne _ he.symm),
    dbGet_dbInsert_ne _ _ _ (hnef _),
    dbGet_dbInsert_ne _ _ _ (hnef _),
    dbGet_dbInsert_ne _ _ _ (hnef _),
    dbGet_dbInsert_ne _ _ _ (hnef _),
    dbGet_dbInsert_self]

theorem write_block_eq (db : DBm) (st : BlockState) :
    MockDB.write_block db st = .ok (writePure db st) := rfl

theorem read_eq (db : DBm) (h : Nat) (key : Key) :
    MockDB.read db h key = .ok (dbGet db (subPath h key)) := rfl

/-! ## The scan loop on well-formed entries -/

theorem splitSlash_fieldPath (h : Nat) {f : Str} {segs : List Str}
    (hf : splitSlash f = segs) :
    splitSlash (fieldPath h f) = heightRaw h :: segs := by
  unfold fieldPath
  rw [splitSlash_append_slash _ (heightRaw_no_slash h), hf]

theorem scanStep_root (st : MockDB.ScanSt) (h : Nat) (b : Bytes) :
    MockDB.scanStep st (fieldPath h ("tree/root".data)) (encodeBlob b) =
      .ok { st with root := some b } := by
  have hsegs := splitSlash_fieldPath h (f := "tree/root".data)
    (by decide : splitSlash ("tree/root".data) = ["tree".data, "root".data])
  unfold MockDB.scanStep
  rw [hsegs]
  simp [decodeBlob_encodeBlob]

theorem scanStep_store (st : MockDB.ScanSt) (h : Nat) (b : Bytes) :
    MockDB.scanStep st (fieldPath h ("tree/store".data)) (encodeBlob b) =
      .ok { st with store := some b } := by
  have hsegs := splitSlash_fieldPath h (f := "tree/store".data)
    (by decide : splitSlash ("tree/store".data) = ["tree".data, "store".data])
  unfold MockDB.scanStep
  rw [hsegs]
  simp [decodeBlob_encodeBlob]

theorem scanStep_hash (st : MockDB.ScanSt) (h : Nat) (b : Bytes) :
    MockDB.scanStep st (fieldPath h ("hash".data)) (encodeBlob b) =
      .ok { st with hash := some b } := by
  have hsegs := splitSlash_fieldPath h (f := "hash".data)
    (by decide : splitSlash ("hash".data) = ["hash".data])
  unfold MockDB.scanStep
  rw [hsegs]
  simp [decodeBlob_encodeBlob]

theorem scanStep_epoch (st : MockDB.ScanSt) (h : Nat) (n : Nat) :
    MockDB.scanStep st (fieldPath h ("epoch".data)) (encodeNat n) =
      .ok { st with epoch := some n } := by
  have hsegs := splitSlash_fieldPath h (f := "epoch".data)
    (by decide : splitSlash ("epoch".data) = ["epoch".data])
  unfold MockDB.scanStep
  rw [hsegs]
  simp [decodeNat_encodeNat]

theorem scanStep_ag (st : MockDB.ScanSt) (h : Nat) (b : Bytes) :
    MockDB.scanStep st (fieldPath h ("address_gen".data)) (encodeBlob b) =
      .ok { st with address_gen := some b } := by
  have hsegs := splitSlash_fieldPath h (f := "address_gen".data)
    (by decide : splitSlash ("address_gen".data) = ["address_gen".data])
  unfold MockDB.scanStep
  rw [hsegs]
  simp [decodeBlob_encodeBlob]

theorem raw_ne_resVP {seg : DbKeySeg} (h : segOk seg = true) : seg.raw ≠ resVP := by
  cases seg with
  | addrSeg a =>
    intro he
    have he' : '#' :: a = ['?'] := he
    injection he' with h1 _
    exact absurd h1 (by decide)
  | strSeg s =>
    simp only [segOk] at h
    intro he
    have he' : s = ['?'] := he
    rw [he'] at h
    exact absurd h (by decide)

theorem splitSlash_subPath_user (h : Nat) {k : Key} (hk : Key.wfUser k = true) :
    splitSlash (subPath h k) =
      heightRaw h :: "subspace".data :: k.segments.map DbKeySeg.raw := by
  obtain ⟨hne, hall⟩ := wfUser_elim hk
  unfold subPath
  rw [splitSlash_joinSlash (by simp)]
  intro s hs
  rcases List.mem_cons.mp hs with rfl | hs
  · exact heightRaw_no_slash h
  rcases List.mem_cons.mp hs with rfl | hs
  · decide
  obtain ⟨seg, hseg, rfl⟩ := List.mem_map.mp hs
  exact raw_no_slash (hall seg hseg)

theorem splitSlash_subPath_vp (h : Nat) {a : Address} (ha : segBodyOk a = true) :
    splitSlash (subPath h (Key.validity_predicate a)) =
      heightRaw h :: "subspace".data :: ['#' :: a, resVP] := by
  unfold subPath Key.validity_predicate
  simp only [List.map_cons, List.map_nil, DbKeySeg.raw]
  rw [splitSlash_joinSlash (by simp)]
  intro s hs
  rcases List.mem_cons.mp hs with rfl | hs
  · exact heightRaw_no_slash h
  rcases List.mem_cons.mp hs with rfl | hs
  · decide
  rcases List.mem_cons.mp hs with rfl | hs
  · intro hm
    rcases List.mem_cons.mp hm with h1 | h1
    · exact absurd h1 (by decide)
    · exact absurd (segBodyOk_mem ha _ h1) (by decide)
  rcases List.mem_cons.mp hs with rfl | hs
  · decide
  · simp at hs

theorem scanStep_sub_user (st : MockDB.ScanSt) (h : Nat) {k : Key}
    (hk : Key.wfUser k = true) (v : Bytes) :
    MockDB.scanStep st (subPath h k) v =
      .ok { st with subspaces := MockDB.subInsert st.subspaces k v } := by
  obtain ⟨hne, hall⟩ := wfUser_elim hk
  have hsegs := splitSlash_subPath_user h hk
  have hparse : Key.parse (joinSlash (k.segments.map DbKeySeg.raw)) = some k :=
    Key.parse_toStr hk
  unfold MockDB.scanStep
  rw [hsegs]
  rcases hg : k.segments[1]? with _ | seg
  · simp [hg, hparse]
  · have hg' : k.segments.get? 1 = some seg := by
      rw [List.get?_eq_getElem?, hg]
    have hseg : seg ∈ k.segments := List.get?_mem hg'
    have hrne : DbKeySeg.raw seg ≠ resVP := raw_ne_resVP (hall seg hseg)
    simp [hg, hparse, hrne]

theorem scanStep_sub_vp (st : MockDB.ScanSt) (h : Nat) {a : Address}
    (ha : segBodyOk a = true) (v : Bytes) :
    MockDB.scanStep st (subPath h (Key.validity_predicate a)) v =
      .ok { st with subspaces :=
        MockDB.subInsert st.subspaces (Key.validity_predicate a) v } := by
  have hsegs := splitSlash_subPath_vp h ha
  unfold MockDB.scanStep
  rw [hsegs]
  simp [Address.decode, ha]

theorem scanStep_sub (st : MockDB.ScanSt) (h : Nat) {k : Key}
    (hk : subKeyOk k = true) (v : Bytes) :
    MockDB.scanStep st (subPath h k) v =
      .ok { st with subspaces := MockDB.subInsert st.subspaces k v } := by
  have hk' := hk
  simp only [subKeyOk, Bool.or_eq_true] at hk'
  rcases hk' with hk' | hk'
  · exact scanStep_sub_user st h hk' v
  · obtain ⟨a, ha, rfl⟩ := isVP_elim hk'
    exact scanStep_sub_vp st h ha v

theorem entrySubKey_sub (h : Nat) {k : Key} (hk : subKeyOk k = true) (v : Bytes) :
    entrySubKey (subPath h k, v) = some (k, v) := by
  have hk' := hk
  simp only [subKeyOk, Bool.or_eq_true] at hk'
  rcases hk' with hk' | hk'
  · obtain ⟨hne, hall⟩ := wfUser_elim hk'
    have hsegs := splitSlash_subPath_user h hk'
    have hparse : Key.parse (joinSlash (k.segments.map DbKeySeg.raw)) = some k :=
      Key.parse_toStr hk'
    unfold entrySubKey
    rw [show ((subPath h k, v) : Str × Bytes).1 = subPath h k from rfl, hsegs]
    rcases hg : k.segments[1]? with _ | seg
    · simp [hg, hparse]
    · have hg' : k.segments.get? 1 = some seg := by
        rw [List.get?_eq_getElem?, hg]
      have hseg : seg ∈ k.segments := List.get?_mem hg'
      have hrne : DbKeySeg.raw seg ≠ resVP := raw_ne_resVP (hall seg hseg)
      simp [hg, hparse, hrne]
  · obtain ⟨a, ha, rfl⟩ := isVP_elim hk'
    have hsegs := splitSlash_subPath_vp h ha
    unfold entrySubKey
    rw [show ((subPath h (Key.validity_predicate a), v) : Str × Bytes).1 =
      subPath h (Key.validity_predicate a) from rfl, hsegs]
    simp [Address.decode, ha]

theorem entrySubKey_fieldPath (h : Nat) {f : Str} {s1 : Str} {rest : List Str}
    (hf : splitSlash f = s1 :: rest) (hs : s1 ≠ "subspace".data) (b : Bytes) :
    entrySubKey (fieldPath h f, b) = none := by
  unfold entrySubKey
  rw [show ((fieldPath h f, b) : Str × Bytes).1 = fieldPath h f from rfl,
    splitSlash_fieldPath h hf]
  simp [hs]

theorem stepPure_eq_of_ok {st0 st1 : MockDB.ScanSt} {e : Str × Bytes}
    (h : MockDB.scanStep st0 e.1 e.2 = .ok st1) : stepPure st0 e = st1 := by
  unfold stepPure
  rw [h]

theorem scanStep_good {st : BlockState} (hwf : stWf st) {e : Str × Bytes}
    (hg : goodEntry st e) (st0 : MockDB.ScanSt) :
    ∃ st1, MockDB.scanStep st0 e.1 e.2 = .ok st1 := by
  rcases hg with rfl | rfl | rfl | rfl | rfl | ⟨kv, hkv, rfl⟩
  · exact ⟨_, scanStep_root st0 st.height st.root⟩
  · exact ⟨_, scanStep_store st0 st.height st.store⟩
  · exact ⟨_, scanStep_hash st0 st.height st.hash⟩
  · exact ⟨_, scanStep_epoch st0 st.height st.epoch⟩
  · exact ⟨_, scanStep_ag st0 st.height st.address_gen⟩
  · exact ⟨_, scanStep_sub st0 st.height (hwf.1 kv hkv) kv.2⟩

theorem scanFold_good {st : BlockState} (hwf : stWf st) :
    ∀ L : List (Str × Bytes), (∀ e ∈ L, goodEntry st e) → ∀ st0 : MockDB.ScanSt,
      MockDB.scanFold L st0 = .ok (L.foldl stepPure st0) := by
  intro L
  induction L with
  | nil =>
    intro _ st0
    rfl
  | cons e es ih =>
    intro hL st0
    obtain ⟨st1, hstep⟩ := scanStep_good hwf (hL e (List.mem_cons_self e es)) st0
    unfold MockDB.scanFold
    rw [hstep, List.foldl_cons, stepPure_eq_of_ok hstep]
    exact ih (fun x hx => hL x (List.mem_cons_of_mem e hx)) st1

theorem foldl_stepPure_proj {α : Type} {st : BlockState}
    (proj : MockDB.ScanSt → α) (tgt : Str × Bytes) (val : α)
    (h1 : ∀ st0, proj (stepPure st0 tgt) = val)
    (h2 : ∀ (st0 : MockDB.ScanSt) (e : Str × Bytes), goodEntry st e → e ≠ tgt →
      proj (stepPure st0 e) = proj st0) :
    ∀ L : List (Str × Bytes), (∀ e ∈ L, goodEntry st e) → ∀ st0,
      (tgt ∈ L → proj (L.foldl stepPure st0) = val) ∧
      (tgt ∉ L → proj (L.foldl stepPure st0) = proj st0) := by
  intro L
  induction L with
  | nil =>
    intro _ st0
    exact ⟨fun h => absurd h (List.not_mem_nil _), fun _ => rfl⟩
  | cons e es ih =>
    intro hL st0
    have ihes := ih (fun x hx => hL x (List.mem_cons_of_mem e hx))
    simp only [List.foldl_cons]
    by_cases he : e = tgt
    · subst he
      refine ⟨fun _ => ?_, fun hnm => absurd (List.mem_cons_self e es) hnm⟩
      by_cases hm : e ∈ es
      · exact (ihes (stepPure st0 e)).1 hm
      · rw [(ihes (stepPure st0 e)).2 hm, h1 st0]
    · have hproj : proj (stepPure st0 e) = proj st0 :=
        h2 st0 e (hL e (List.mem_cons_self e es)) he
      constructor
      · intro hm
        rcases List.mem_cons.mp hm with h | h
        · exact absurd h.symm he
        · exact (ihes (stepPure st0 e)).1 h
      · intro hnm
        have hx : tgt ∉ es := fun h => hnm (List.mem_cons_of_mem e h)
        rw [(ihes (stepPure st0 e)).2 hx, hproj]

theorem foldl_stepPure_subs {st : BlockState} (hwf : stWf st) :
    ∀ L : List (Str × Bytes), (∀ e ∈ L, goodEntry st e) → ∀ st0 : MockDB.ScanSt,
      (L.foldl stepPure st0).subspaces =
        (L.filterMap entrySubKey).foldl
          (fun a kv => MockDB.subInsert a kv.1 kv.2) st0.subspaces := by
  intro L
  induction L with
  | nil =>
    intro _ st0
    rfl
  | cons e es ih =>
    intro hL st0
    have ihes := ih (fun x hx => hL x (List.mem_cons_of_mem e hx))
    have hge := hL e (List.mem_cons_self e es)
    simp only [List.foldl_cons]
    rcases hge with rfl | rfl | rfl | rfl | rfl | ⟨kv, hkv, rfl⟩
    · rw [stepPure_eq_of_ok (scanStep_root st0 st.height st.root),
        List.filterMap_cons_none (by
          exact entrySubKey_fieldPath st.height (f := "tree/root".data)
            (by decide : splitSlash ("tree/root".data) = "tree".data :: ["root".data])
            (by decide : "tree".data ≠ "subspace".data) _)]
      exact ihes _
    · rw [stepPure_eq_of_ok (scanStep_store st0 st.height st.store),
        List.filterMap_cons_none (by
          exact entrySubKey_fieldPath st.height (f := "tree/store".data)
            (by decide : splitSlash ("tree/store".data) = "tree".data :: ["store".data])
            (by decide : "tree".data ≠ "subspace".data) _)]
      exact ihes _
    · rw [stepPure_eq_of_ok (scanStep_hash st0 st.height st.hash),
        List.filterMap_cons_none (by
          exact entrySubKey_fieldPath st.height (f := "hash".data)
            (by decide : splitSlash ("hash".data) = "hash".data :: [])
            (by decide : "hash".data ≠ "subspace".data) _)]
      exact ihes _
    · rw [stepPure_eq_of_ok (scanStep_epoch st0 st.height st.epoch),
        List.filterMap_cons_none (by
          exact entrySubKey_fieldPath st.height (f := "epoch".data)
            (by decide : splitSlash ("epoch".data) = "epoch".data :: [])
            (by decide : "epoch".data ≠ "subspace".data) _)]
      exact ihes _
    · rw [stepPure_eq_of_ok (scanStep_ag st0 st.height st.address_gen),
        List.filterMap_cons_none (by
          exact entrySubKey_fieldPath st.height (f := "address_gen".data)
            (by decide : splitSlash ("address_gen".data) = "address_gen".data :: [])
            (by decide : "address_gen".data ≠ "subspace".data) _)]
      exact ihes _
    · rw [stepPure_eq_of_ok (scanStep_sub st0 st.height (hwf.1 kv hkv) kv.2),
        List.filterMap_cons_some (by exact entrySubKey_sub st.height (hwf.1 kv hkv) kv.2),
        List.foldl_cons]
      exact ihes _

theorem stepPure_root_frame {st : BlockState} (hwf : stWf st) (st0 : MockDB.ScanSt)
    (e : Str × Bytes) (hg : goodEntry st e)
    (hne : e ≠ (fieldPath st.height ("tree/root".data), encodeBlob st.root)) :
    (stepPure st0 e).root = st0.root := by
  rcases hg with rfl | rfl | rfl | rfl | rfl | ⟨kv, hkv, rfl⟩
  · exact absurd rfl hne
  · rw [stepPure_eq_of_ok (scanStep_store st0 st.height st.store)]
  · rw [stepPure_eq_of_ok (scanStep_hash st0 st.height st.hash)]
  · rw [stepPure_eq_of_ok (scanStep_epoch st0 st.height st.epoch)]
  · rw [stepPure_eq_of_ok (scanStep_ag st0 st.height st.address_gen)]
  · rw [stepPure_eq_of_ok (scanStep_sub st0 st.height (hwf.1 kv hkv) kv.2)]

theorem stepPure_store_frame {st : BlockState} (hwf : stWf st) (st0 : MockDB.ScanSt)
    (e : Str × Bytes) (hg : goodEntry st e)
    (hne : e ≠ (fieldPath st.height ("tree/store".data), encodeBlob st.store)) :
    (stepPure st0 e).store = st0.store := by
  rcases hg with rfl | rfl | rfl | rfl | rfl | ⟨kv, hkv, rfl⟩
  · rw [stepPure_eq_of_ok (scanStep_root st0 st.height st.root)]
  · exact absurd rfl hne
  · rw [stepPure_eq_of_ok (scanStep_hash st0 st.height st.hash)]
  · rw [stepPure_eq_of_ok (scanStep_epoch st0 st.height st.epoch)]
  · rw [stepPure_eq_of_ok (scanStep_ag st0 st.height st.address_gen)]
  · rw [stepPure_eq_of_ok (scanStep_sub st0 st.height (hwf.1 kv hkv) kv.2)]

theorem stepPure_hash_frame {st : BlockState} (hwf : stWf st) (st0 : MockDB.ScanSt)
    (e : Str × Bytes) (hg : goodEntry st e)
    (hne : e ≠ (fieldPath st.height ("hash".data), encodeBlob st.hash)) :
    (stepPure st0 e).hash = st0.hash := by
  rcases hg with rfl | rfl | rfl | rfl | rfl | ⟨kv, hkv, rfl⟩
  · rw [stepPure_eq_of_ok (scanStep_root st0 st.height st.root)]
  · rw [stepPure_eq_of_ok (scanStep_store st0 st.height st.store)]
  · exact absurd rfl hne
  · rw [stepPure_eq_of_ok (scanStep_epoch st0 st.height st.epoch)]
  · rw [stepPure_eq_of_ok (scanStep_ag st0 st.height st.address_gen)]
  · rw [stepPure_eq_of_ok (scanStep_sub st0 st.height (hwf.1 kv hkv) kv.2)]

theorem stepPure_epoch_frame {st : BlockState} (hwf : stWf st) (st0 : MockDB.ScanSt)
    (e : Str × Bytes) (hg : goodEntry st e)
    (hne : e ≠ (fieldPath st.height ("epoch".data), encodeNat st.epoch)) :
    (stepPure st0 e).epoch = st0.epoch := by
  rcases hg with rfl | rfl | rfl | rfl | rfl | ⟨kv, hkv, rfl⟩
  · rw [stepPure_eq_of_ok (scanStep_root st0 st.height st.root)]
  · rw [stepPure_eq_of_ok (scanStep_store st0 st.height st.store)]
  · rw [stepPure_eq_of_ok (scanStep_hash st0 st.height st.hash)]
  · exact absurd rfl hne
  · rw [stepPure_eq_of_ok (scanStep_ag st0 st.height st.address_gen)]
  · rw [stepPure_eq_of_ok (scanStep_sub st0 st.height (hwf.1 kv hkv) kv.2)]

theorem stepPure_ag_frame {st : BlockState} (hwf : stWf st) (st0 : MockDB.ScanSt)
    (e : Str × Bytes) (hg : goodEntry st e)
    (hne : e ≠ (fieldPath st.height ("address_gen".data), encodeBlob st.address_gen)) :
    (stepPure st0 e).address_gen = st0.address_gen := by
  rcases hg with rfl | rfl | rfl | rfl | rfl | ⟨kv, hkv, rfl⟩
  · rw [stepPure_eq_of_ok (scanStep_root st0 st.height st.root)]
  · rw [stepPure_eq_of_ok (scanStep_store st0 st.height st.store)]
  · rw [stepPure_eq_of_ok (scanStep_hash st0 st.height st.hash)]
  · rw [stepPure_eq_of_ok (scanStep_epoch st0 st.height st.epoch)]
  · exact absurd rfl hne
  · rw [stepPure_eq_of_ok (scanStep_sub st0 st.height (hwf.1 kv hkv) kv.2)]

theorem rangeEntries_filterMap {st : BlockState} (hwf : stWf st) :
    (rangeEntries st).filterMap entrySubKey = st.subspaces := by
  have hmap : ∀ l : List (Key × Bytes), (∀ kv ∈ l, subKeyOk kv.1 = true) →
      (l.map (fun kv => (subPath st.height kv.1, kv.2))).filterMap entrySubKey = l := by
    intro l
    induction l with
    | nil =>
      intro _
      rfl
    | cons kv rest ih =>
      intro hall
      simp only [List.map_cons]
      rw [List.filterMap_cons_some
        (by exact entrySubKey_sub st.height (hall kv (List.mem_cons_self _ _)) kv.2),
        ih (fun x hx => hall x (List.mem_cons_of_mem _ hx))]
  unfold rangeEntries
  rw [List.filterMap_append, List.filterMap_append]
  rw [show List.filterMap entrySubKey
      [(fieldPath st.height ("tree/root".data), encodeBlob st.root),
       (fieldPath st.height ("tree/store".data), encodeBlob st.store),
       (fieldPath st.height ("hash".data), encodeBlob st.hash),
       (fieldPath st.height ("epoch".data), encodeNat st.epoch)] = [] from by
    rw [List.filterMap_cons_none (by
        exact entrySubKey_fieldPath st.height (f := "tree/root".data)
          (by decide : splitSlash ("tree/root".data) = "tree".data :: ["root".data])
          (by decide : "tree".data ≠ "subspace".data) _),
      List.filterMap_cons_none (by
        exact entrySubKey_fieldPath st.height (f := "tree/store".data)
          (by decide : splitSlash ("tree/store".data) = "tree".data :: ["store".data])
          (by decide : "tree".data ≠ "subspace".data) _),
      List.filterMap_cons_none (by
        exact entrySubKey_fieldPath st.height (f := "hash".data)
          (by decide : splitSlash ("hash".data) = "hash".data :: [])
          (by decide : "hash".data ≠ "subspace".data) _),
      List.filterMap_cons_none (by
        exact entrySubKey_fieldPath st.height (f := "epoch".data)
          (by decide : splitSlash ("epoch".data) = "epoch".data :: [])
          (by decide : "epoch".data ≠ "subspace".data) _),
      List.filterMap_nil]]
  rw [show List.filterMap entrySubKey
      [(fieldPath st.height ("address_gen".data), encodeBlob st.address_gen)] = [] from by
    rw [List.filterMap_cons_none (by
        exact entrySubKey_fieldPath st.height (f := "address_gen".data)
          (by decide : splitSlash ("address_gen".data) = "address_gen".data :: [])
          (by decide : "address_gen".data ≠ "subspace".data) _),
      List.filterMap_nil]]
  rw [hmap st.subspaces hwf.1]
  simp

theorem read_last_block_writePure {st : BlockState} (hwf : stWf st) :
    ∃ subs' : List (Key × Bytes),
      MockDB.read_last_block (writePure [] st) =
        .ok (some ⟨st.root, st.store, st.hash, st.height, st.epoch,
          st.epoch_start_height, st.epoch_start_time, subs', st.address_gen⟩) ∧
      subs'.Perm st.subspaces := by
  have hperm := range_writePure hwf
  set L := dbRange (writePure [] st) (heightRaw st.height ++ ['/'])
    (heightRaw (next_height st.height) ++ ['/']) with hLdef
  have hgood : ∀ e ∈ L, goodEntry st e := by
    intro e he
    have he2 := hperm.mem_iff.mp he
    simp only [rangeEntries, List.mem_append, List.mem_cons, List.mem_singleton,
      List.not_mem_nil, or_false, List.mem_map] at he2
    unfold goodEntry
    rcases he2 with ((h | h | h | h) | ⟨kv, hkv, hkv2⟩) | h
    · exact Or.inl h
    · exact Or.inr (Or.inl h)
    · exact Or.inr (Or.inr (Or.inl h))
    · exact Or.inr (Or.inr (Or.inr (Or.inl h)))
    · exact Or.inr (Or.inr (Or.inr (Or.inr (Or.inr ⟨kv, hkv, hkv2.symm⟩))))
    · exact Or.inr (Or.inr (Or.inr (Or.inr (Or.inl h))))
  have hmr : (fieldPath st.height ("tree/root".data), encodeBlob st.root) ∈ L :=
    hperm.mem_iff.mpr (by simp [rangeEntries])
  have hms : (fieldPath st.height ("tree/store".data), encodeBlob st.store) ∈ L :=
    hperm.mem_iff.mpr (by simp [rangeEntries])
  have hmh : (fieldPath st.height ("hash".data), encodeBlob st.hash) ∈ L :=
    hperm.mem_iff.mpr (by simp [rangeEntries])
  have hme : (fieldPath st.height ("epoch".data), encodeNat st.epoch) ∈ L :=
    hperm.mem_iff.mpr (by simp [rangeEntries])
  have hma : (fieldPath st.height ("address_gen".data), encodeBlob st.address_gen) ∈ L :=
    hperm.mem_iff.mpr (by simp [rangeEntries])
  have hr : (L.foldl stepPure ⟨none, none, none, none, none, []⟩).root = some st.root :=
    (foldl_stepPure_proj (fun s => s.root) _ (some st.root)
      (fun st0 => by rw [stepPure_eq_of_ok (scanStep_root st0 st.height st.root)])
      (stepPure_root_frame hwf) L hgood _).1 hmr
  have hs : (L.foldl stepPure ⟨none, none, none, none, none, []⟩).store = some st.store :=
    (foldl_stepPure_proj (fun s => s.store) _ (some st.store)
      (fun st0 => by rw [stepPure_eq_of_ok (scanStep_store st0 st.height st.store)])
      (stepPure_store_frame hwf) L hgood _).1 hms
  have hh : (L.foldl stepPure ⟨none, none, none, none, none, []⟩).hash = some st.hash :=
    (foldl_stepPure_proj (fun s => s.hash) _ (some st.hash)
      (fun st0 => by rw [stepPure_eq_of_ok (scanStep_hash st0 st.height st.hash)])
      (stepPure_hash_frame hwf) L hgood _).1 hmh
  have hep : (L.foldl stepPure ⟨none, none, none, none, none, []⟩).epoch = some st.epoch :=
    (foldl_stepPure_proj (fun s => s.epoch) _ (some st.epoch)
      (fun st0 => by rw [stepPure_eq_of_ok (scanStep_epoch st0 st.height st.epoch)])
      (stepPure_epoch_frame hwf) L hgood _).1 hme
  have hag : (L.foldl stepPure ⟨none, none, none, none, none, []⟩).address_gen =
      some st.address_gen :=
    (foldl_stepPure_proj (fun s => s.address_gen) _ (some st.address_gen)
      (fun st0 => by rw [stepPure_eq_of_ok (scanStep_ag st0 st.height st.address_gen)])
      (stepPure_ag_frame hwf) L hgood _).1 hma
  have hfmperm : (L.filterMap entrySubKey).Perm st.subspaces := by
    have h1 := hperm.filterMap entrySubKey
    rw [rangeEntries_filterMap hwf] at h1
    exact h1
  have hnd2 : ((L.filterMap entrySubKey).map (·.1)).Nodup :=
    ((hfmperm.map (·.1)).nodup_iff).mpr hwf.2
  have hsubs : (L.foldl stepPure ⟨none, none, none, none, none, []⟩).subspaces =
      L.filterMap entrySubKey := by
    rw [foldl_stepPure_subs hwf L hgood _]
    exact foldl_subInsert_eq _ [] (by simpa using hnd2)
  refine ⟨L.filterMap entrySubKey, ?_, hfmperm⟩
  unfold MockDB.read_last_block
  rw [writePure_get_height]
  rw [writePure_get_esh]
  rw [writePure_get_est]
  simp only [decodeNat_encodeNat]
  rw [← hLdef, scanFold_good hwf L hgood _]
  simp only [hr, hs, hh, hep, hag, hsubs]

/-! ## Scan step behaviour on arbitrary entries -/

theorem scanStep_ok_frames {st0 st1 : MockDB.ScanSt} {p : Str} {b : Bytes}
    (h : MockDB.scanStep st0 p b = .ok st1) :
    (setsField .root p = false → st1.root = st0.root) ∧
    (setsField .store p = false → st1.store = st0.store) ∧
    (setsField .hash p = false → st1.hash = st0.hash) ∧
    (setsField .epoch p = false → st1.epoch = st0.epoch) ∧
    (setsField .addressGen p = false → st1.address_gen = st0.address_gen) := by
  simp only [MockDB.scanStep] at h
  split at h
  · cases h
  · next seg1 hseg1 =>
    split at h
    · next hs1 =>
      split at h
      · cases h
      · next smt hsmt =>
        split at h
        · next hsr =>
          split at h
          · cases h
          · injection h with h'
            subst h'
            refine ⟨?_, ?_, ?_, ?_, ?_⟩ <;> intro hns <;>
              first
                | rfl
                | (simp [setsField, ← List.get?_eq_getElem?, hseg1, hs1, hsmt, hsr] at hns)
        · split at h
          · next hss =>
            split at h
            · cases h
            · injection h with h'
              subst h'
              refine ⟨?_, ?_, ?_, ?_, ?_⟩ <;> intro hns <;>
                first
                  | rfl
                  | (simp [setsField, ← List.get?_eq_getElem?, hseg1, hs1, hsmt, hss] at hns)
          · cases h
    · split at h
      · next hs1 =>
        split at h
        · cases h
        · injection h with h'
          subst h'
          refine ⟨?_, ?_, ?_, ?_, ?_⟩ <;> intro hns <;>
            first
              | rfl
              | (simp [setsField, ← List.get?_eq_getElem?, hseg1, hs1] at hns)
      · split at h
        · next hs1 =>
          split at h
          · cases h
          · injection h with h'
            subst h'
            refine ⟨?_, ?_, ?_, ?_, ?_⟩ <;> intro hns <;>
              first
                | rfl
                | (simp [setsField, ← List.get?_eq_getElem?, hseg1, hs1] at hns)
        · split at h
          · split at h
            · next seg3 hseg3 =>
              split at h
              · split at h
                · cases h
                · split at h
                  · cases h
                  · split at h
                    · cases h
                    · injection h with h'
                      subst h'
                      exact ⟨fun _ => rfl, fun _ => rfl, fun _ => rfl, fun _ => rfl,
                        fun _ => rfl⟩
              · split at h
                · cases h
                · injection h with h'
                  subst h'
                  exact ⟨fun _ => rfl, fun _ => rfl, fun _ => rfl, fun _ => rfl,
                    fun _ => rfl⟩
            · split at h
              · cases h
              · injection h with h'
                subst h'
                exact ⟨fun _ => rfl, fun _ => rfl, fun _ => rfl, fun _ => rfl,
                  fun _ => rfl⟩
          · split at h
            · next hs1 =>
              split at h
              · cases h
              · injection h with h'
                subst h'
                refine ⟨?_, ?_, ?_, ?_, ?_⟩ <;> intro hns <;>
                  first
                    | rfl
                    | (simp [setsField, ← List.get?_eq_getElem?, hseg1, hs1] at hns)
            · cases h

theorem scanStep_panic_vp {st0 : MockDB.ScanSt} {p : Str} {b : Bytes} {m : String}
    (h : MockDB.scanStep st0 p b = .panic m) : vpPanicky p = true := by
  simp only [MockDB.scanStep] at h
  split at h
  · cases h
  · next seg1 hseg1 =>
    split at h
    · split at h
      · cases h
      · split at h
        · split at h
          · cases h
          · cases h
        · split at h
          · split at h
            · cases h
            · cases h
          · cases h
    · split at h
      · split at h
        · cases h
        · cases h
      · split at h
        · split at h
          · cases h
          · cases h
        · split at h
          · next hsub =>
            split at h
            · next seg3 hseg3 =>
              split at h
              · next hres =>
                split at h
                · next hg2 =>
                  simp [vpPanicky, ← List.get?_eq_getElem?, hseg1, hsub, hseg3, hres, hg2]
                · next addr_str hg2 =>
                  split at h
                  · simp [vpPanicky, ← List.get?_eq_getElem?, hseg1, hsub, hseg3, hres, hg2]
                  · next c rest =>
                    split at h
                    · next hdec =>
                      simp [vpPanicky, ← List.get?_eq_getElem?, hseg1, hsub, hseg3, hres, hg2, hdec]
                    · cases h
              · split at h
                · cases h
                · cases h
            · split at h
              · cases h
              · cases h
          · split at h
            · split at h
              · cases h
              · cases h
            · cases h

theorem scanStep_unknown {p : Str} (hu : unrecognized p = true) (st0 : MockDB.ScanSt) (b : Bytes) :
    MockDB.scanStep st0 p b = .err (.UnknownKey p) := by
  unfold unrecognized at hu
  split at hu
  · next hg1 =>
    simp only [MockDB.scanStep, hg1]
  · next s1 hg1 =>
    split at hu
    · next ht =>
      subst ht
      have hg1' : (splitSlash p)[1]? = some ("tree".data) := by
        rw [← List.get?_eq_getElem?]
        exact hg1
      split at hu
      · next hg2 =>
        have hg2' : (splitSlash p)[2]? = none := by
          rw [← List.get?_eq_getElem?]
          exact hg2
        simp [MockDB.scanStep, hg1', hg2']
      · next s2 hg2 =>
        simp only [Bool.and_eq_true, Bool.not_eq_true', beq_eq_false_iff_ne] at hu
        obtain ⟨hr, hs⟩ := hu
        have hg2' : (splitSlash p)[2]? = some s2 := by
          rw [← List.get?_eq_getElem?]
          exact hg2
        simp [MockDB.scanStep, hg1', hg2', hr, hs]
    · next ht =>
      simp only [Bool.and_eq_true, Bool.not_eq_true', beq_eq_false_iff_ne] at hu
      obtain ⟨⟨⟨hh', he'⟩, hs'⟩, ha'⟩ := hu
      have hg1' : (splitSlash p)[1]? = some s1 := by
        rw [← List.get?_eq_getElem?]
        exact hg1
      simp [MockDB.scanStep, hg1', ht, hh', he', hs', ha']

theorem scanFold_append (L1 L2 : List (Str × Bytes)) (st0 : MockDB.ScanSt) :
    MockDB.scanFold (L1 ++ L2) st0 =
      match MockDB.scanFold L1 st0 with
      | .ok s => MockDB.scanFold L2 s
      | .err e => .err e
      | .panic m => .panic m := by
  induction L1 generalizing st0 with
  | nil => rfl
  | cons e es ih =>
    simp only [List.cons_append]
    show (match MockDB.scanStep st0 e.1 e.2 with
      | .ok st' => MockDB.scanFold (es ++ L2) st'
      | .err er => .err er
      | .panic m => .panic m) = _
    rcases hstep : MockDB.scanStep st0 e.1 e.2 with s1 | er | m
    · simp only [MockDB.scanFold, hstep]
      exact ih s1
    · simp only [MockDB.scanFold, hstep]
    · simp only [MockDB.scanFold, hstep]

theorem scanFold_allok : ∀ (L : List (Str × Bytes)) (st0 : MockDB.ScanSt),
    (∀ e ∈ L, ∀ s : MockDB.ScanSt, (MockDB.scanStep s e.1 e.2).isOkB = true) →
    MockDB.scanFold L st0 = .ok (L.foldl stepPure st0) := by
  intro L
  induction L with
  | nil =>
    intro st0 _
    rfl
  | cons e es ih =>
    intro st0 hok
    have h1 := hok e (List.mem_cons_self e es) st0
    rcases hstep : MockDB.scanStep st0 e.1 e.2 with s1 | er | m
    · unfold MockDB.scanFold
      rw [hstep, List.foldl_cons, stepPure_eq_of_ok hstep]
      exact ih _ (fun x hx s => hok x (List.mem_cons_of_mem e hx) s)
    · rw [hstep] at h1
      simp [Outcome.isOkB] at h1
    · rw [hstep] at h1
      simp [Outcome.isOkB] at h1

theorem scanFold_not_ok {e : Str × Bytes} : ∀ (L : List (Str × Bytes)), e ∈ L →
    (∀ s : MockDB.ScanSt, (MockDB.scanStep s e.1 e.2).isOkB = false) →
    ∀ st0 : MockDB.ScanSt, (MockDB.scanFold L st0).isOkB = false := by
  intro L
  induction L with
  | nil =>
    intro h
    cases h
  | cons a as ih =>
    intro hmem hbad st0
    unfold MockDB.scanFold
    rcases hstep : MockDB.scanStep st0 a.1 a.2 with s1 | er | m
    · rcases List.mem_cons.mp hmem with rfl | hmem2
      · have := hbad st0
        rw [hstep] at this
        simp [Outcome.isOkB] at this
      · exact ih hmem2 hbad s1
    · simp [Outcome.isOkB]
    · simp [Outcome.isOkB]

theorem scanFold_panic : ∀ (L : List (Str × Bytes)) (st0 : MockDB.ScanSt) (m : String),
    MockDB.scanFold L st0 = .panic m →
    ∃ e ∈ L, ∃ s : MockDB.ScanSt, MockDB.scanStep s e.1 e.2 = .panic m := by
  intro L
  induction L with
  | nil =>
    intro st0 m h
    cases h
  | cons a as ih =>
    intro st0 m h
    unfold MockDB.scanFold at h
    rcases hstep : MockDB.scanStep st0 a.1 a.2 with s1 | er | mm <;> rw [hstep] at h
    · obtain ⟨e, he, s, hs⟩ := ih s1 m h
      exact ⟨e, List.mem_cons_of_mem a he, s, hs⟩
    · cases h
    · injection h with h'
      exact ⟨a, List.mem_cons_self a as, st0, by rw [hstep, h']⟩

theorem scanFold_field_none {tag : FieldTag} : ∀ (L : List (Str × Bytes))
    (st0 s : MockDB.ScanSt), MockDB.scanFold L st0 = .ok s →
    (∀ e ∈ L, setsField tag e.1 = false) → fieldIsNone tag st0 → fieldIsNone tag s := by
  intro L
  induction L with
  | nil =>
    intro st0 s h _ h0
    injection h with h'
    rw [← h']
    exact h0
  | cons a as ih =>
    intro st0 s h hns h0
    unfold MockDB.scanFold at h
    rcases hstep : MockDB.scanStep st0 a.1 a.2 with s1 | er | m <;> rw [hstep] at h
    · have hfr := scanStep_ok_frames hstep
      have hna := hns a (List.mem_cons_self a as)
      have h1 : fieldIsNone tag s1 := by
        cases tag
        · unfold fieldIsNone at h0 ⊢
          rw [hfr.1 hna]
          exact h0
        · unfold fieldIsNone at h0 ⊢
          rw [hfr.2.1 hna]
          exact h0
        · unfold fieldIsNone at h0 ⊢
          rw [hfr.2.2.1 hna]
          exact h0
        · unfold fieldIsNone at h0 ⊢
          rw [hfr.2.2.2.1 hna]
          exact h0
        · unfold fieldIsNone at h0 ⊢
          rw [hfr.2.2.2.2 hna]
          exact h0
      exact ih s1 s h (fun x hx => hns x (List.mem_cons_of_mem a hx)) h1
    · cases h
    · cases h

/-! ## The prefix iterator -/

theorem mem_iter_prefix {db : DBm} {H : Nat} {p : Key} {s : Str} {v : Bytes} {g : Nat} :
    (s, v, g) ∈ MockDB.iter_prefix db H p ↔
      ((heightRaw H ++ '/' :: "subspace".data ++ ['/']) ++ s, v) ∈ db ∧
      isPrefixB (Key.toStr p) s = true ∧ g = s.length + v.length := by
  simp only [MockDB.iter_prefix]
  constructor
  · intro hm
    obtain ⟨e, he, hf⟩ := List.mem_filterMap.mp hm
    obtain ⟨hedb, hpref⟩ := List.mem_filter.mp he
    rcases hsp : stripPre (heightRaw H ++ '/' :: "subspace".data ++ ['/']) e.1 with _ | k
    · rw [hsp] at hf
      cases hf
    · rw [hsp] at hf
      simp only [Option.some.injEq, Prod.mk.injEq] at hf
      obtain ⟨hk, hv, hg⟩ := hf
      subst hk
      have he1 : e.1 = (heightRaw H ++ '/' :: "subspace".data ++ ['/']) ++ k :=
        stripPre_eq_some_iff.mp hsp
      have hee : e = ((heightRaw H ++ '/' :: "subspace".data ++ ['/']) ++ k, v) := by
        rw [Prod.ext_iff]
        exact ⟨he1, hv⟩
      rw [hee] at hedb
      refine ⟨hedb, ?_, ?_⟩
      · rw [he1, isPrefixB_append_left] at hpref
        exact hpref
      · rw [← hg, hv]
  · rintro ⟨hmem, hpref, rfl⟩
    refine List.mem_filterMap.mpr
      ⟨((heightRaw H ++ '/' :: "subspace".data ++ ['/']) ++ s, v), ?_, ?_⟩
    · refine List.mem_filter.mpr ⟨hmem, ?_⟩
      show isPrefixB ((heightRaw H ++ '/' :: "subspace".data ++ ['/']) ++ Key.toStr p) _ = true
      rw [isPrefixB_append_left]
      exact hpref
    · rw [show stripPre (heightRaw H ++ '/' :: "subspace".data ++ ['/'])
        ((heightRaw H ++ '/' :: "subspace".data ++ ['/']) ++ s) = some s from
        stripPre_eq_some_iff.mpr rfl]

theorem iter_prefix_sorted {db : DBm} (hs : dbSorted db) (H : Nat) (p : Key) :
    List.Pairwise (fun x y => lexLt x.1 y.1 = true) ( MockDB.iter_prefix db H p) := by
  simp only [MockDB.iter_prefix]
  refine List.Pairwise.filterMap _ ?_ (List.Pairwise.filter _ hs)
  intro a a' hR x hx y hy
  rcases hspa : stripPre (heightRaw H ++ '/' :: "subspace".data ++ ['/']) a.1 with _ | ka
  · rw [hspa] at hx
    cases hx
  · rw [hspa] at hx
    rcases hspb : stripPre (heightRaw H ++ '/' :: "subspace".data ++ ['/']) a'.1 with _ | kb
    · rw [hspb] at hy
      cases hy
    · rw [hspb] at hy
      have hx' : x = (ka, a.2, ka.length + a.2.length) := by
        cases hx
        rfl
      have hy' : y = (kb, a'.2, kb.length + a'.2.length) := by
        cases hy
        rfl
      subst hx' hy'
      show lexLt ka kb = true
      have ha1 := stripPre_eq_some_iff.mp hspa
      have hb1 := stripPre_eq_some_iff.mp hspb
      rw [ha1, hb1, lexLt_append_left] at hR
      exact hR

/-! ## Frame lemmas for historical isolation and absence -/

theorem writePure_frame_sub (db : DBm) (st : BlockState) {k : Key}
    (hk : subKeyOk k = true)
    (hwfsub : ∀ kv ∈ st.subspaces, subKeyOk kv.1 = true)
    (hne : ∀ kv ∈ st.subspaces, kv.1 ≠ k) :
    dbGet (writePure db st) (subPath st.height k) =
      dbGet db (subPath st.height k) := by
  have hxne : ∀ (c : Char) (g : Str), c ≠ 'x' → subPath st.height k ≠ c :: g := by
    intro c g hc
    rw [subPath_form]
    exact xhead_ne hc
  have hfne : ∀ (f : Str) (c : Char) (g : Str), f = c :: g → c ≠ 's' →
      subPath st.height k ≠ fieldPath st.height f :=
    fun f c g hf hc => subPath_ne_fieldPath (subKeyOk_segs_ne_nil hk) hf hc
  unfold writePure
  rw [dbGet_dbInsert_ne _ _ _ (hxne 'h' _ (by decide)),
    dbGet_dbInsert_ne _ _ _ (hfne _ _ _ rfl (by decide)),
    dbGet_subfold_ne _ _
      (by
        intro kv hkv he
        exact hne kv hkv (subPath_inj (hwfsub kv hkv) hk he)),
    dbGet_dbInsert_ne _ _ _ (hfne _ _ _ rfl (by decide)),
    dbGet_dbInsert_ne _ _ _ (hfne _ _ _ rfl (by decide)),
    dbGet_dbInsert_ne _ _ _ (hfne _ _ _ rfl (by decide)),
    dbGet_dbInsert_ne _ _ _ (hfne _ _ _ rfl (by decide)),
    dbGet_dbInsert_ne _ _ _ (hxne 'e' _ (by decide)),
    dbGet_dbInsert_ne _ _ _ (hxne 'e' _ (by decide))]

theorem writeSeq_get_none {H : Nat} {k : Key} (hk : subKeyOk k = true) :
    ∀ (states : List BlockState) (db : DBm), (∀ s ∈ states, stWf s) →
    (∀ s ∈ states, s.height = H → ∀ kv ∈ s.subspaces, kv.1 ≠ k) →
    dbGet db (subPath H k) = none →
    dbGet (states.foldl (fun d s => writePure d s) db) (subPath H k) = none := by
  intro states
  induction states with
  | nil =>
    intro db _ _ hdb
    exact hdb
  | cons s rest ih =>
    intro db hwfs hnever hdb
    simp only [List.foldl_cons]
    refine ih (writePure db s) (fun x hx => hwfs x (List.mem_cons_of_mem s hx))
      (fun x hx => hnever x (List.mem_cons_of_mem s hx)) ?_
    by_cases hsH : s.height = H
    · rw [← hsH]
      rw [← hsH] at hdb
      rw [writePure_frame_sub db s hk (hwfs s (List.mem_cons_self s rest)).1
        (hnever s (List.mem_cons_self s rest) hsH)]
      exact hdb
    · rw [writePure_frame db s
        (by
          rw [subPath_form]
          exact xhead_ne (by decide))
        (by
          rw [subPath_form]
          exact xhead_ne (by decide))
        (by
          rw [subPath_form]
          exact xhead_ne (by decide))
        (by
          intro t he
          rw [subPath_form] at he
          exact hsH (heightPrefix_inj he).1.symm)]
      exact hdb

/-! # The claims -/

/-! ## Claim C1: write/read-back round trip -/

/-- Claim C1: committing a Block State onto a fresh `MockDB` via
`write_block` and then calling `read_last_block` succeeds and returns a
Block State equal to the committed one in every field — root, store, hash,
height, epoch, epoch_start_height, epoch_start_time, address_gen, and the
subspaces map up to the (unordered, `HashMap`-valued) order of its
entries. -/
theorem C1_write_read_back (st : BlockState) (hwf : stWf st) :
    ∃ db : DBm, MockDB.write_block [] st = .ok db ∧
      ∃ subs' : List (Key × Bytes),
        MockDB.read_last_block db =
          .ok (some ⟨st.root, st.store, st.hash, st.height, st.epoch,
            st.epoch_start_height, st.epoch_start_time, subs', st.address_gen⟩) ∧
        subs'.Perm st.subspaces :=
  ⟨writePure [] st, write_block_eq [] st, read_last_block_writePure hwf⟩

/-- Witness for C1 at the concrete state `stA`. -/
theorem C1_write_read_back_witness :
    stWf stA ∧
    (∃ db : DBm, MockDB.write_block [] stA = .ok db ∧
      ∃ subs' : List (Key × Bytes),
        MockDB.read_last_block db =
          .ok (some ⟨stA.root, stA.store, stA.hash, stA.height, stA.epoch,
            stA.epoch_start_height, stA.epoch_start_time, subs', stA.address_gen⟩) ∧
        subs'.Perm stA.subspaces) :=
  ⟨⟨by decide, by decide⟩, C1_write_read_back stA ⟨by decide, by decide⟩⟩

/-! ## Claim C3: prefix iteration semantics -/

/-- Claim C3: on a sorted database, `iter_prefix db H p` yields exactly the
triples `(s, v, g)` such that the full key `<H>/subspace/ ++ s` is bound to
`v` in the database and `s` extends the rendering of `p` (the
`<H>/subspace/` portion stripped off), with gas `g` equal to the length of
the relative key plus the length of the value; and the yielded sequence is
in strictly increasing lexicographic key order. -/
theorem C3_iter_semantics (db : DBm) (hs : dbSorted db) (H : Nat) (p : Key) :
    (∀ s v g, (s, v, g) ∈ MockDB.iter_prefix db H p ↔
      ((heightRaw H ++ '/' :: "subspace".data ++ ['/']) ++ s, v) ∈ db ∧
      isPrefixB (Key.toStr p) s = true ∧ g = s.length + v.length) ∧
    List.Pairwise (fun x y => lexLt x.1 y.1 = true) ( MockDB.iter_prefix db H p) :=
  ⟨fun _ _ _ => mem_iter_prefix, iter_prefix_sorted hs H p⟩

/-- Witness for C3 on the concrete committed database `dbIterW`. -/
theorem C3_iter_semantics_witness :
    dbSorted dbIterW ∧
    ((∀ s v g, (s, v, g) ∈ MockDB.iter_prefix dbIterW 1 keyA ↔
      ((heightRaw 1 ++ '/' :: "subspace".data ++ ['/']) ++ s, v) ∈ dbIterW ∧
      isPrefixB (Key.toStr keyA) s = true ∧ g = s.length + v.length) ∧
    List.Pairwise (fun x y => lexLt x.1 y.1 = true) ( MockDB.iter_prefix dbIterW 1 keyA)) :=
  ⟨by unfold dbSorted; decide,
    C3_iter_semantics dbIterW (by unfold dbSorted; decide) 1 keyA⟩

/-! ## Claim C4: validity-predicate round trip -/

/-- The general key parser never accepts a validity-predicate key's
segments: the reserved marker fails segment validation. -/
theorem wfUser_vp_false (a : Address) :
    Key.wfUser (Key.validity_predicate a) = false := by
  unfold Key.wfUser Key.validity_predicate
  simp only [List.all_cons, List.all_nil]
  rw [show segOk (DbKeySeg.strSeg resVP) = false from by decide]
  simp

/-- Claim C4: for an address with a canonical encoding, committing a Block
State whose subspaces hold the address's validity-predicate key and then
calling `read_last_block` returns a subspaces map containing exactly that
reconstructed key; the general key parser rejects that key's rendered
string, and the scan step on its stored path reconstructs the key through
the reserved-segment special case (`Key.validity_predicate` applied to the
decoded address). -/
theorem C4_vp_round_trip (st : BlockState) (hwf : stWf st) (a : Address) (v : Bytes)
    (hmem : (Key.validity_predicate a, v) ∈ st.subspaces) :
    Key.parse (Key.validity_predicate a).toStr = none ∧
    MockDB.scanStep ⟨none, none, none, none, none, []⟩
        (subPath st.height (Key.validity_predicate a)) v =
      .ok ⟨none, none, none, none, none, [(Key.validity_predicate a, v)]⟩ ∧
    ∃ subs' : List (Key × Bytes),
      MockDB.read_last_block (writePure [] st) =
        .ok (some ⟨st.root, st.store, st.hash, st.height, st.epoch,
          st.epoch_start_height, st.epoch_start_time, subs', st.address_gen⟩) ∧
      (Key.validity_predicate a, v) ∈ subs' := by
  have hsub : subKeyOk (Key.validity_predicate a) = true := hwf.1 _ hmem
  have ha : segBodyOk a = true := by
    simp only [subKeyOk, Bool.or_eq_true] at hsub
    rcases hsub with h1 | h1
    · rw [wfUser_vp_false] at h1
      cases h1
    · obtain ⟨a2, ha2, he⟩ := isVP_elim h1
      have h4 : a = a2 := by
        have he3 := congrArg (fun k : Key => k.segments[0]?) he
        simpa [Key.validity_predicate] using he3
      rw [h4]
      exact ha2
  obtain ⟨subs', hrlb, hperm⟩ := read_last_block_writePure hwf
  exact ⟨Key.parse_vp ha, scanStep_sub_vp _ st.height ha v, subs', hrlb,
    hperm.mem_iff.mpr hmem⟩

/-- Witness for C4 at the concrete state `stA` and address `adr`. -/
theorem C4_vp_round_trip_witness :
    (stWf stA ∧ (Key.validity_predicate ['a', 'd', 'r'], ([8, 8] : Bytes)) ∈ stA.subspaces) ∧
    (Key.parse (Key.validity_predicate ['a', 'd', 'r']).toStr = none ∧
     MockDB.scanStep ⟨none, none, none, none, none, []⟩
        (subPath stA.height (Key.validity_predicate ['a', 'd', 'r'])) [8, 8] =
      .ok ⟨none, none, none, none, none, [(Key.validity_predicate ['a', 'd', 'r'], [8, 8])]⟩ ∧
     ∃ subs' : List (Key × Bytes),
       MockDB.read_last_block (writePure [] stA) =
         .ok (some ⟨stA.root, stA.store, stA.hash, stA.height, stA.epoch,
           stA.epoch_start_height, stA.epoch_start_time, subs', stA.address_gen⟩) ∧
       (Key.validity_predicate ['a', 'd', 'r'], [8, 8]) ∈ subs') :=
  ⟨⟨⟨by decide, by decide⟩, by decide⟩,
    C4_vp_round_trip stA ⟨by decide, by decide⟩ ['a', 'd', 'r'] [8, 8] (by decide)⟩

/-! ## Claim C9: absence reads back as none -/

/-- Claim C9: a subspace key never written under height `H` reads back as
`Ok none` after any sequence of commits, even when `H` itself was
committed; and on a fresh backend every `read` returns `Ok none` and
`read_last_block` returns `Ok none`. -/
theorem C9_absence (states : List BlockState) (H : Nat) (k : Key)
    (hk : subKeyOk k = true)
    (hwfs : ∀ s ∈ states, stWf s)
    (hnever : ∀ s ∈ states, s.height = H → ∀ kv ∈ s.subspaces, kv.1 ≠ k) :
    MockDB.read (writeSeq states) H k = .ok none ∧
    MockDB.read [] H k = .ok none ∧
    MockDB.read_last_block [] = .ok none := by
  refine ⟨?_, rfl, rfl⟩
  rw [read_eq, show writeSeq states = states.foldl (fun d s => writePure d s) [] from rfl,
    writeSeq_get_none hk states [] hwfs hnever rfl]

/-- Witness for C9: the key `b/z` is never written at height 0 by the
commit sequence `[stA, stB]` (it is only written at height 1). -/
theorem C9_absence_witness :
    (subKeyOk keyBZ = true ∧ (∀ s ∈ [stA, stB], stWf s) ∧
      (∀ s ∈ [stA, stB], s.height = 0 → ∀ kv ∈ s.subspaces, kv.1 ≠ keyBZ)) ∧
    (MockDB.read (writeSeq [stA, stB]) 0 keyBZ = .ok none ∧
     MockDB.read [] 0 keyBZ = .ok none ∧
     MockDB.read_last_block [] = .ok none) := by
  have hwfs : ∀ s ∈ [stA, stB], stWf s := by
    intro s hs
    simp only [List.mem_cons, List.not_mem_nil, or_false] at hs
    rcases hs with rfl | rfl
    · exact ⟨by decide, by decide⟩
    · exact ⟨by decide, by decide⟩
  exact ⟨⟨by decide, hwfs, by decide⟩,
    C9_absence [stA, stB] 0 keyBZ (by decide) hwfs (by decide)⟩

/-! ## Claim C10: raw string-prefix matching -/

/-- Claim C10: the iterator matches candidates by raw string prefix on the
encoded key, not by whole-segment boundary: any stored subspace entry whose
encoded relative key extends the rendering of the iteration key by an
arbitrary suffix — with or without an intervening separator — is yielded. -/
theorem C10_string_match (db : DBm) (H : Nat) (p : Key) (ext : Str) (v : Bytes)
    (hmem : ((heightRaw H ++ '/' :: "subspace".data ++ ['/']) ++ (Key.toStr p ++ ext), v)
      ∈ db) :
    (Key.toStr p ++ ext, v, (Key.toStr p ++ ext).length + v.length) ∈
      MockDB.iter_prefix db H p :=
  mem_iter_prefix.mpr ⟨hmem, isPrefixB_iff.mpr ⟨ext, rfl⟩, rfl⟩

/-- Witness for C10: the entry stored under `ab/x` is yielded when
iterating the one-segment key `a` (the suffix `b/x` crosses no separator
boundary). -/
theorem C10_string_match_witness :
    ((heightRaw 0 ++ '/' :: "subspace".data ++ ['/']) ++
        (Key.toStr keyA ++ ('b' :: '/' :: ['x'])), ([3] : Bytes)) ∈ dbC10w ∧
    (Key.toStr keyA ++ ('b' :: '/' :: ['x']), ([3] : Bytes),
      (Key.toStr keyA ++ ('b' :: '/' :: ['x'])).length + ([3] : Bytes).length) ∈
      MockDB.iter_prefix dbC10w 0 keyA :=
  ⟨by decide, C10_string_match dbC10w 0 keyA ('b' :: '/' :: ['x']) [3] (by decide)⟩

/-! ## Claim C5: what the scan visits -/

/-- Claim C5, counterexample: with the height pointer at 1, the key `xxx`
— whose top segment is the rendering of height 2, not of height 1 — is
nevertheless visited by the scan, which fails on it with `UnknownKey`:
the scanned set is a raw lexicographic string interval, not the set of
keys whose top segment equals the pointer height. -/
theorem C5_counterexample :
    dbGet dbC5x ("height".data) = some [1] ∧ decodeNat [1] = some 1 ∧
    ((['x', 'x', 'x'] : Str), ([1] : Bytes)) ∈
      dbRange dbC5x (heightRaw 1 ++ ['/']) (heightRaw (next_height 1) ++ ['/']) ∧
    (splitSlash ['x', 'x', 'x']).head? ≠ some (heightRaw 1) ∧
    MockDB.read_last_block dbC5x = .err (.UnknownKey ['x', 'x', 'x']) := by decide

/-- Claim C5 (amended): for a database every key of which is either a
separator-free global (first character below `'x'`) or of the form
`<height'>/<tail>`, the scanned string interval for pointer height `h`
coincides with the set of keys whose top segment is the rendering of `h`.
On arbitrary keys (such as `xxx`) the two differ, as the counterexample
shows. -/
theorem C5_scan_range (db : DBm) (h : Nat)
    (hshape : ∀ e ∈ db, (∃ c g, e.1 = c :: g ∧ c < 'x' ∧ '/' ∉ e.1) ∨
      ∃ h' t, e.1 = heightRaw h' ++ '/' :: t) :
    dbRange db (heightRaw h ++ ['/']) (heightRaw (next_height h) ++ ['/']) =
      db.filter (fun e => (splitSlash e.1).head? == some (heightRaw h)) := by
  unfold dbRange
  refine List.filter_congr ?_
  intro e he
  show (lexLe (heightRaw h ++ ['/']) e.1 && lexLt e.1 (heightRaw (next_height h) ++ ['/']))
    = ((splitSlash e.1).head? == some (heightRaw h))
  rcases hshape e he with ⟨c, g, he1, hc, hns⟩ | ⟨h', t, he1⟩
  · rw [he1] at hns ⊢
    rw [global_not_inRange h rfl hc, Bool.false_and, splitSlash_noSlash hns,
      List.head?_cons]
    symm
    rw [beq_eq_false_iff_ne]
    intro hcon
    rw [heightRaw_cons] at hcon
    injection hcon with h1
    injection h1 with h2 _
    exact absurd h2 (ne_of_lt hc)
  · rw [he1]
    rw [splitSlash_append_slash t (heightRaw_no_slash h'), List.head?_cons]
    rcases Nat.lt_trichotomy h' h with hlt | rfl | hgt
    · rw [inRange_lower_lt hlt, Bool.false_and]
      symm
      rw [beq_eq_false_iff_ne]
      intro hcon
      have := heightRaw_inj (Option.some.inj hcon)
      omega
    · rw [inRange_height_self]
      symm
      simp
    · rw [inRange_upper_ge hgt, Bool.and_false]
      symm
      rw [beq_eq_false_iff_ne]
      intro hcon
      have := heightRaw_inj (Option.some.inj hcon)
      omega

/-- Witness for the amended C5 on the concrete shaped database `dbC5w`. -/
theorem C5_scan_range_witness :
    (∀ e ∈ dbC5w, (∃ c g, e.1 = c :: g ∧ c < 'x' ∧ '/' ∉ e.1) ∨
      ∃ h' t, e.1 = heightRaw h' ++ '/' :: t) ∧
    dbRange dbC5w (heightRaw 0 ++ ['/']) (heightRaw (next_height 0) ++ ['/']) =
      dbC5w.filter (fun e => (splitSlash e.1).head? == some (heightRaw 0)) := by
  have hsh : ∀ e ∈ dbC5w, (∃ c g, e.1 = c :: g ∧ c < 'x' ∧ '/' ∉ e.1) ∨
      ∃ h' t, e.1 = heightRaw h' ++ '/' :: t := by
    intro e he
    simp only [dbC5w, List.mem_cons, List.not_mem_nil, or_false] at he
    rcases he with rfl | rfl | rfl
    · exact Or.inl ⟨'h', [], rfl, by decide, by decide⟩
    · exact Or.inr ⟨0, ['a'], rfl⟩
    · exact Or.inr ⟨1, ['b'], rfl⟩
  exact ⟨hsh, C5_scan_range dbC5w 0 hsh⟩

/-! ## Claim C7: historical isolation -/

/-- Claim C7: committing a Block State at height `H + 1` does not change
the result of `read` at height `H` for any key; outside the new height's
own prefix, only the two global epoch-start fields and the global height
pointer can change. -/
theorem C7_historical_isolation (db : DBm) (st2 : BlockState) (H : Nat)
    (hh2 : st2.height = H + 1) (k : Key) :
    ∃ db2 : DBm, MockDB.write_block db st2 = .ok db2 ∧
      MockDB.read db2 H k = MockDB.read db H k ∧
      ∀ q : Str, dbGet db2 q ≠ dbGet db q →
        q = "epoch_start_height".data ∨ q = "epoch_start_time".data ∨
        q = "height".data ∨ ∃ t, q = heightRaw st2.height ++ '/' :: t := by
  refine ⟨writePure db st2, write_block_eq db st2, ?_, ?_⟩
  · rw [read_eq, read_eq,
      writePure_frame db st2 (by rw [subPath_form]; exact xhead_ne (by decide))
        (by rw [subPath_form]; exact xhead_ne (by decide))
        (by rw [subPath_form]; exact xhead_ne (by decide))
        (by
          intro t
          rw [subPath_form, hh2]
          intro hcon
          have := (heightPrefix_inj hcon).1
          omega)]
  · intro q hne
    by_contra hcon
    push_neg at hcon
    obtain ⟨h1, h2, h3, h4⟩ := hcon
    exact hne (writePure_frame db st2 h1 h2 h3 h4)

/-- Witness for C7: committing `stB` (height 1) over the committed `stA`
(height 0) leaves the height-0 read of `a/y` unchanged. -/
theorem C7_historical_isolation_witness :
    stB.height = 0 + 1 ∧
    (∃ db2 : DBm, MockDB.write_block (writePure [] stA) stB = .ok db2 ∧
      MockDB.read db2 0 keyAY = MockDB.read (writePure [] stA) 0 keyAY ∧
      ∀ q : Str, dbGet db2 q ≠ dbGet (writePure [] stA) q →
        q = "epoch_start_height".data ∨ q = "epoch_start_time".data ∨
        q = "height".data ∨ ∃ t, q = heightRaw stB.height ++ '/' :: t) :=
  ⟨by decide, C7_historical_isolation (writePure [] stA) stB 0 (by decide) keyAY⟩

/-! ## Claim C6: typed failures versus panics -/

/-- Claim C6, counterexample: the stored path `x/subspace//?` (an empty
address segment before the reserved marker) makes `read_last_block` panic
in the address reconstruction (the source's `String::remove` on an empty
string) instead of returning a typed error. -/
theorem C6_counterexample :
    MockDB.read_last_block dbC6x = .panic "String::remove: index out of bounds" := by
  decide

/-- Claim C6 (amended): `read_last_block` propagates failures as typed
errors and never panics, provided no entry of the database is a malformed
reserved-marker subspace path (missing, empty or undecodable address
segment before the reserved marker); on such paths it panics, as the
counterexample shows. -/
theorem C6_no_panic (db : DBm) (hok : ∀ e ∈ db, vpPanicky e.1 = false) :
    (MockDB.read_last_block db).isPanicB = false := by
  unfold MockDB.read_last_block
  rcases hh : dbGet db ("height".data) with _ | hb
  · simp only [hh]
    rfl
  · simp only [hh]
    rcases hd : decodeNat hb with _ | h
    · simp only [hd]
      rfl
    · simp only [hd]
      rcases he1 : dbGet db ("epoch_start_height".data) with _ | eb
      · simp only [he1]
        rfl
      · simp only [he1]
        rcases hd1 : decodeNat eb with _ | v1
        · simp only [hd1]
          rfl
        · simp only [hd1]
          rcases he2 : dbGet db ("epoch_start_time".data) with _ | tb
          · simp only [he2]
            rfl
          · simp only [he2]
            rcases hd2 : decodeNat tb with _ | v2
            · simp only [hd2]
              rfl
            · simp only [hd2]
              rcases hsf : MockDB.scanFold (dbRange db (heightRaw h ++ ['/'])
                  (heightRaw (next_height h) ++ ['/'])) ⟨none, none, none, none, none, []⟩
                with s | er | m
              · simp only [hsf]
                rcases hr : s.root with _ | rv <;> rcases hs2 : s.store with _ | sv <;>
                  rcases hh3 : s.hash with _ | hv <;> rcases he3 : s.epoch with _ | ev <;>
                  rcases ha3 : s.address_gen with _ | av <;>
                  simp [Outcome.isPanicB]
              · simp only [hsf]
                rfl
              · exfalso
                obtain ⟨e, heL, s', hstep⟩ := scanFold_panic _ _ _ hsf
                have hmem : e ∈ db := (List.mem_filter.mp heL).1
                have hpk := scanStep_panic_vp hstep
                rw [hok e hmem] at hpk
                cases hpk

/-- Witness for the amended C6 on the concrete committed database of
`stA`, which holds a well-formed reserved-marker path. -/
theorem C6_no_panic_witness :
    (∀ e ∈ writePure [] stA, vpPanicky e.1 = false) ∧
    (MockDB.read_last_block (writePure [] stA)).isPanicB = false :=
  ⟨by decide, C6_no_panic (writePure [] stA) (by decide)⟩

/-! ## Claim C8: unrecognized keys -/

/-- Claim C8, counterexample: the scanned range of `dbC8x` holds the
unrecognized key `x/zzz`, yet `read_last_block` returns a `CodingError`,
not an `UnknownKey` error: the scan stops at the first failing entry
(here the undecodable bytes under `x/epoch`), so an unrecognized key does
not always surface as `UnknownKey`. -/
theorem C8_counterexample :
    unrecognized ("x/zzz".data) = true ∧
    ("x/zzz".data, ([7] : Bytes)) ∈
      dbRange dbC8x (heightRaw 0 ++ ['/']) (heightRaw (next_height 0) ++ ['/']) ∧
    dbGet dbC8x ("height".data) = some [0] ∧
    MockDB.read_last_block dbC8x = .err (.CodingError "decode failed") ∧
    ∀ p : Str, MockDB.read_last_block dbC8x ≠ .err (.UnknownKey p) := by
  refine ⟨by decide, by decide, by decide, by decide, ?_⟩
  intro p hcon
  rw [(by decide : MockDB.read_last_block dbC8x = .err (.CodingError "decode failed"))]
    at hcon
  simp at hcon

/-- Claim C8 (amended): an unrecognized key in the scanned range always
prevents `read_last_block` from succeeding (it is never silently skipped),
and when the unrecognized entry is the first anomaly of the scan — every
entry before it steps successfully — the result is exactly the
`UnknownKey` error naming that key. -/
theorem C8_unknown_key (db : DBm) (h : Nat) (hb eb tb : Bytes) (e1 e2 : Nat)
    (hhb : dbGet db ("height".data) = some hb) (hhd : decodeNat hb = some h)
    (heb : dbGet db ("epoch_start_height".data) = some eb)
    (hed : decodeNat eb = some e1)
    (htb : dbGet db ("epoch_start_time".data) = some tb)
    (htd : decodeNat tb = some e2)
    (e : Str × Bytes)
    (hmem : e ∈ dbRange db (heightRaw h ++ ['/']) (heightRaw (next_height h) ++ ['/']))
    (hu : unrecognized e.1 = true) :
    (MockDB.read_last_block db).isOkB = false ∧
    (∀ L1 L2, dbRange db (heightRaw h ++ ['/']) (heightRaw (next_height h) ++ ['/'])
        = L1 ++ e :: L2 →
      (∀ x ∈ L1, ∀ s : MockDB.ScanSt, (MockDB.scanStep s x.1 x.2).isOkB = true) →
      MockDB.read_last_block db = .err (.UnknownKey e.1)) := by
  constructor
  · have hnok := scanFold_not_ok _ hmem
      (fun s => by rw [scanStep_unknown hu s e.2]; rfl)
      (⟨none, none, none, none, none, []⟩ : MockDB.ScanSt)
    unfold MockDB.read_last_block
    simp only [hhb, hhd, heb, hed, htb, htd]
    rcases hsf : MockDB.scanFold (dbRange db (heightRaw h ++ ['/'])
        (heightRaw (next_height h) ++ ['/'])) ⟨none, none, none, none, none, []⟩
      with s | er | m
    · rw [hsf] at hnok
      simp [Outcome.isOkB] at hnok
    · simp only [hsf]
      rfl
    · simp only [hsf]
      rfl
  · intro L1 L2 hsplit hok1
    have hfold : MockDB.scanFold (dbRange db (heightRaw h ++ ['/'])
        (heightRaw (next_height h) ++ ['/'])) ⟨none, none, none, none, none, []⟩ =
        .err (.UnknownKey e.1) := by
      rw [hsplit, scanFold_append, scanFold_allok L1 _ hok1]
      show MockDB.scanFold (e :: L2)
        (List.foldl stepPure ⟨none, none, none, none, none, []⟩ L1) = _
      unfold MockDB.scanFold
      rw [scanStep_unknown hu]
    unfold MockDB.read_last_block
    simp only [hhb, hhd, heb, hed, htb, htd, hfold]

/-- Witness for the amended C8 on the concrete database `dbC8w`, whose
scanned range holds exactly the unrecognized entry. -/
theorem C8_unknown_key_witness :
    (dbGet dbC8w ("height".data) = some [0] ∧ unrecognized ("x/zzz".data) = true ∧
      ("x/zzz".data, ([7] : Bytes)) ∈
        dbRange dbC8w (heightRaw 0 ++ ['/']) (heightRaw (next_height 0) ++ ['/'])) ∧
    (MockDB.read_last_block dbC8w).isOkB = false ∧
    (∀ L1 L2, dbRange dbC8w (heightRaw 0 ++ ['/']) (heightRaw (next_height 0) ++ ['/'])
        = L1 ++ ("x/zzz".data, ([7] : Bytes)) :: L2 →
      (∀ x ∈ L1, ∀ s : MockDB.ScanSt, (MockDB.scanStep s x.1 x.2).isOkB = true) →
      MockDB.read_last_block dbC8w = .err (.UnknownKey ("x/zzz".data))) :=
  ⟨⟨by decide, by decide, by decide⟩,
    C8_unknown_key dbC8w 0 [0] [0] [0] 0 0 (by decide) (by decide) (by decide)
      (by decide) (by decide) (by decide) ("x/zzz".data, ([7] : Bytes)) (by decide)
      (by decide)⟩

/-! ## Claim C2: missing essential data -/

/-- Claim C2, counterexample: in `dbC2x` the height pointer reads 1 and
all five essential entries for height 1 (`xx/tree/root`, `xx/tree/store`,
`xx/hash`, `xx/epoch`, `xx/address_gen`) are missing, yet
`read_last_block` returns `Ok (Some _)` — a Block State populated from the
alien `xx0/...` keys that happen to fall inside the scanned string
interval — instead of the Temporary essential-data error. -/
theorem C2_counterexample :
    dbGet dbC2x ("height".data) = some [1] ∧ decodeNat [1] = some 1 ∧
    dbGet dbC2x ("epoch_start_height".data) = some [0] ∧
    dbGet dbC2x ("epoch_start_time".data) = some [0] ∧
    dbGet dbC2x (fieldPath 1 ("tree/root".data)) = none ∧
    dbGet dbC2x (fieldPath 1 ("tree/store".data)) = none ∧
    dbGet dbC2x (fieldPath 1 ("hash".data)) = none ∧
    dbGet dbC2x (fieldPath 1 ("epoch".data)) = none ∧
    dbGet dbC2x (fieldPath 1 ("address_gen".data)) = none ∧
    (MockDB.read_last_block dbC2x).isOkB = true := by decide

/-- Claim C2 (amended): with the height pointer and both epoch-start
fields present and decodable, if no key of the scanned range matches the
pattern that sets a given essential field, then `read_last_block` does not
succeed; and when every individual scan step succeeds, the result is
exactly the Temporary essential-data error.  (What "missing" must mean
here is the range-pattern condition, not absence of the per-height entry,
as the counterexample shows.) -/
theorem C2_missing_essential (db : DBm) (h e1 e2 : Nat) (hb eb tb : Bytes)
    (tag : FieldTag)
    (hhb : dbGet db ("height".data) = some hb) (hhd : decodeNat hb = some h)
    (heb : dbGet db ("epoch_start_height".data) = some eb)
    (hed : decodeNat eb = some e1)
    (htb : dbGet db ("epoch_start_time".data) = some tb)
    (htd : decodeNat tb = some e2)
    (hmiss : ∀ e ∈ dbRange db (heightRaw h ++ ['/'])
      (heightRaw (next_height h) ++ ['/']), setsField tag e.1 = false) :
    (MockDB.read_last_block db).isOkB = false ∧
    ((∀ e ∈ dbRange db (heightRaw h ++ ['/']) (heightRaw (next_height h) ++ ['/']),
        ∀ s : MockDB.ScanSt, (MockDB.scanStep s e.1 e.2).isOkB = true) →
      MockDB.read_last_block db =
        .err (.Temporary "Essential data couldn't be read from the DB")) := by
  constructor
  · unfold MockDB.read_last_block
    simp only [hhb, hhd, heb, hed, htb, htd]
    rcases hsf : MockDB.scanFold (dbRange db (heightRaw h ++ ['/'])
        (heightRaw (next_height h) ++ ['/'])) ⟨none, none, none, none, none, []⟩
      with s | er | m
    · have hnone := scanFold_field_none _ _ _ hsf hmiss (by cases tag <;> rfl)
      simp only [hsf]
      cases tag <;> unfold fieldIsNone at hnone <;>
        rcases hr : s.root with _ | rv <;> rcases hs2 : s.store with _ | sv <;>
        rcases hh3 : s.hash with _ | hv <;> rcases he3 : s.epoch with _ | ev <;>
        rcases ha3 : s.address_gen with _ | av <;>
        first
        | rfl
        | (rw [hr] at hnone; cases hnone)
        | (rw [hs2] at hnone; cases hnone)
        | (rw [hh3] at hnone; cases hnone)
        | (rw [he3] at hnone; cases hnone)
        | (rw [ha3] at hnone; cases hnone)
    · simp only [hsf]
      rfl
    · simp only [hsf]
      rfl
  · intro hallok
    have hsf := scanFold_allok (dbRange db (heightRaw h ++ ['/'])
      (heightRaw (next_height h) ++ ['/'])) ⟨none, none, none, none, none, []⟩ hallok
    have hnone := scanFold_field_none _ _ _ hsf hmiss (by cases tag <;> rfl)
    unfold MockDB.read_last_block
    simp only [hhb, hhd, heb, hed, htb, htd, hsf]
    generalize hgen : List.foldl stepPure
      (⟨none, none, none, none, none, []⟩ : MockDB.ScanSt)
      (dbRange db (heightRaw h ++ ['/']) (heightRaw (next_height h) ++ ['/'])) = s
      at hnone ⊢
    cases tag <;> unfold fieldIsNone at hnone <;>
      rcases hr : s.root with _ | rv <;> rcases hs2 : s.store with _ | sv <;>
      rcases hh3 : s.hash with _ | hv <;> rcases he3 : s.epoch with _ | ev <;>
      rcases ha3 : s.address_gen with _ | av <;>
      first
      | rfl
      | (rw [hr] at hnone; cases hnone)
      | (rw [hs2] at hnone; cases hnone)
      | (rw [hh3] at hnone; cases hnone)
      | (rw [he3] at hnone; cases hnone)
      | (rw [ha3] at hnone; cases hnone)

/-- Witness for the amended C2 on the concrete database `dbC2w`, whose
scanned range is empty (every essential field trivially unmatched). -/
theorem C2_missing_essential_witness :
    (dbGet dbC2w ("height".data) = some [0] ∧ decodeNat [0] = some 0 ∧
      dbGet dbC2w ("epoch_start_height".data) = some [0] ∧ decodeNat [0] = some 0 ∧
      dbGet dbC2w ("epoch_start_time".data) = some [0] ∧
      (∀ e ∈ dbRange dbC2w (heightRaw 0 ++ ['/'])
        (heightRaw (next_height 0) ++ ['/']), setsField FieldTag.root e.1 = false)) ∧
    (MockDB.read_last_block dbC2w).isOkB = false ∧
    ((∀ e ∈ dbRange dbC2w (heightRaw 0 ++ ['/']) (heightRaw (next_height 0) ++ ['/']),
        ∀ s : MockDB.ScanSt, (MockDB.scanStep s e.1 e.2).isOkB = true) →
      MockDB.read_last_block dbC2w =
        .err (.Temporary "Essential data couldn't be read from the DB")) :=
  ⟨⟨by decide, by decide, by decide, by decide, by decide, by decide⟩,
    C2_missing_essential dbC2w 0 0 0 [0] [0] [0] FieldTag.root (by decide) (by decide)
      (by decide) (by decide) (by decide) (by decide) (by decide)⟩
